import Mathlib

/-!
Shallow embedding of `src/addon/mixins/validator.js` from
`ember-cli-data-validation`: a declarative per-field validation engine
for Ember Data records.  JavaScript values are modelled by the inductive
`ECDV.JSVal`; JS objects are ordered association lists of string keys
(JS objects enumerate own keys in insertion order, and the declarations
the engine reads never carry duplicates).  In-place mutation (the
`Ember.merge` into a declared rule-value object, the clearing and growth
of the record's error collection, record state transitions) is modelled
by explicit state passing: functions return the post-call state of
everything the JS code mutates.  JS numbers are modelled as `Int`: no
code path in this engine does arithmetic on them, they are only stored,
compared with `typeof`, and tested against zero by `Ember.isEmpty`.
External collaborators (validator implementations, message resolvers,
the commit operation) are parameters: a validator instance's
`validate(attributeName, value, attribute, model)` is modelled as a pure
function of the attribute name and the current value, which encodes the
purely synchronous, deterministic validator contract; the `attribute`
and `model` arguments add no information for such validators.  Ambient
container lookup (`getOwner`) is modelled by passing the container
explicitly.
-/

set_option autoImplicit false

namespace ECDV

/-- A JavaScript value as this engine manipulates them.  `attrRef` is a
reference to an attribute object, identified by its name (the real
reference is cyclic — the attribute's own validation metadata ends up
containing a reference to the attribute — which value semantics cannot
reproduce; no code in the engine reads through the reference).
`resolverRef` is a reference to a message-resolver object, carrying its
`resolveMessage` method, or `none` for JS `undefined` when no resolver
was found. -/
inductive JSVal where
  | undef
  | nul
  | bool (b : Bool)
  | num (n : Int)
  | str (s : String)
  | obj (fields : List (String × JSVal))
  | arr (elems : List JSVal)
  | attrRef (name : String)
  | resolverRef (resolve : Option (String → JSVal))

/-- First field of a JS object with the given key (JS objects have at
most one own property per key). -/
def lookupField (fields : List (String × JSVal)) (k : String) : Option JSVal :=
  match fields with
  | [] => none
  | (k', v) :: rest => if k' = k then some v else lookupField rest k

/-- The numeric value of a property, when that property holds a JS
number (`typeof obj.k === 'number'`). -/
def numProp (fields : List (String × JSVal)) (k : String) : Option Int :=
  match lookupField fields k with
  | some (JSVal.num n) => some n
  | _ => none

/-- `Ember.isEmpty`: null/undefined are empty; a string or array is
empty iff its length is 0; an object with a numeric `size` property is
empty iff it is 0, else an object with a numeric `length` property is
empty iff it is 0; everything else is non-empty. -/
def jsIsEmpty : JSVal → Bool
  | JSVal.undef => true
  | JSVal.nul => true
  | JSVal.str s => s.isEmpty
  | JSVal.arr xs => xs.isEmpty
  | JSVal.obj fields =>
    match numProp fields "size" with
    | some n => n == 0
    | none =>
      match numProp fields "length" with
      | some n => n == 0
      | none => false
  | _ => false

/-- `typeof v === 'object'`: true for plain objects, arrays, `null`,
and the attribute/resolver object references. -/
def jsTypeofIsObject : JSVal → Bool
  | JSVal.nul => true
  | JSVal.obj _ => true
  | JSVal.arr _ => true
  | JSVal.attrRef _ => true
  | JSVal.resolverRef _ => true
  | _ => false

/-- `Object.keys(v)` paired with the corresponding values, in own-key
enumeration order.  `none` models the `TypeError` thrown on `null` and
`undefined`.  Arrays enumerate their indices, primitive strings their
character positions (ES2015 coercion); other primitives have no own
keys.  The opaque references are modelled as having no enumerable own
properties (nothing in the engine enumerates them). -/
def jsOwnKeysVals : JSVal → Option (List (String × JSVal))
  | JSVal.undef => none
  | JSVal.nul => none
  | JSVal.obj fields => some fields
  | JSVal.arr xs => some (xs.enum.map (fun p => (toString p.1, p.2)))
  | JSVal.str s => some (s.toList.enum.map (fun p => (toString p.1, JSVal.str p.2.toString)))
  | _ => some []

/-- JS property assignment `fields[k] = v`: overwrite in place when the
key exists (its enumeration position is kept), append otherwise. -/
def setProp (fields : List (String × JSVal)) (k : String) (v : JSVal) : List (String × JSVal) :=
  if fields.any (fun p => p.1 = k) then
    fields.map (fun p => if p.1 = k then (k, v) else p)
  else
    fields ++ [(k, v)]

/-- `Ember.merge(original, updates)`: assign every own property of
`updates` onto `original`, in `updates`' enumeration order. -/
def emberMerge (original updates : List (String × JSVal)) : List (String × JSVal) :=
  updates.foldl (fun acc p => setProp acc p.1 p.2) original

/-- `Ember.String.camelize`: a run of `-`, `_`, `.` or space upcases
the following character and is dropped; the first character of the
result is lowercased. -/
def camelizeChars : Bool → List Char → List Char
  | _, [] => []
  | up, c :: rest =>
    if c = '-' ∨ c = '_' ∨ c = '.' ∨ c = ' ' then
      camelizeChars true rest
    else
      (if up then c.toUpper else c) :: camelizeChars false rest

/-- `Ember.String.camelize` on a string. -/
def camelize (s : String) : String :=
  match camelizeChars false s.toList with
  | [] => ""
  | c :: rest => String.mk (c.toLower :: rest)

/-- The record's Error Collection (`DS.Errors`): an ordered list of
(attribute name, message) entries, as `errors.add`/`errors._add` append
them.  `errors.isEmpty` is list emptiness and `errors._clear` resets it
to `[]`. -/
abbrev Errors : Type := List (String × String)

/-- Messages recorded for one attribute name, in insertion order. -/
def messagesFor (errors : Errors) (name : String) : List String :=
  (List.filter (fun e => e.1 = name) errors).map (fun e => e.2)

/-- An attribute (or relationship) descriptor handed to the mixin by
`eachAttribute`/`eachRelationship`.  `validation` is the value of
`Ember.get(attribute.options, 'validation')` (`undef` when the
declaration has none).  `parentTypeKey` is the model-name stamp that
`_validateAttribute` assigns before running the validators. -/
structure Attribute where
  name : String
  validation : JSVal
  parentTypeKey : Option String

/-- One entry of the `validators` list built inside `validatorsFor`:
`{type: name, value: validation[name], attribute: attribute}` (the
`attribute` field is spelt `attr` because `attribute` is reserved in
Lean). -/
structure RuleDescriptor where
  type : String
  value : JSVal
  attr : Attribute

/-- A constructed validator instance: it holds the normalized
configuration it was created from, the camelized `typeKey` stamped on
its class, and its `validate` behaviour.  `validate(name, value,
attribute, model)` is modelled as a pure function of the attribute name
and the current value (the synchronous, deterministic validator
contract; see the header comment). -/
structure ValidatorInstance where
  config : List (String × JSVal)
  typeKey : String
  validate : String → JSVal → JSVal

/-- A validator factory as resolved from the container:
`factory.create(config)` yields an instance whose behaviour
`validateOf config` is determined by the class and its configuration. -/
structure ValidatorFactory where
  validateOf : List (String × JSVal) → String → JSVal → JSVal

/-- The factory's `create`, stamping the camelized type key
(`validatorClass.typeKey = Ember.String.camelize(typeKey)`). -/
def ValidatorFactory.create (f : ValidatorFactory) (typeKey : String)
    (config : List (String × JSVal)) : ValidatorInstance :=
  { config := config, typeKey := camelize typeKey, validate := f.validateOf config }

/-- The ambient container (`getOwner(...)`), passed explicitly:
`lookup` resolves message-resolver providers (giving their
`resolveMessage` method), `lookupFactory` resolves validator factories
(`_lookupFactory`/`lookupFactory` differ only in API vintage). -/
structure Container where
  lookup : String → Option (String → JSVal)
  lookupFactory : String → Option ValidatorFactory

/-- `lookupMessageResolver`: try `resolver:validation-message`, then the
vendored `ember-cli-data-validation@resolver:validation-message`;
absence (`none`) is a legitimate result. -/
def lookupMessageResolver (container : Container) : Option (String → JSVal) :=
  (container.lookup "resolver:validation-message").orElse
    (fun _ => container.lookup "ember-cli-data-validation@resolver:validation-message")

/-- `lookupValidtorFactory` (name as in the source): try
`validator:<key>`, then the vendored
`ember-cli-data-validation@validator:<key>`. -/
def lookupValidtorFactory (container : Container) (key : String) : Option ValidatorFactory :=
  (container.lookupFactory ("validator:" ++ key)).orElse
    (fun _ => container.lookupFactory ("ember-cli-data-validation@validator:" ++ key))

/-- The message of the `Ember.assert` raised by `lookupValidator` when
no validator factory resolves for a rule-type key. -/
def missingValidatorMessage (typeKey : String) : String :=
  "Could not find Validator `" ++ typeKey ++ "`."

/-- The normalization step of `lookupValidator`: a rule value that is
not `typeof 'object'` is replaced by a fresh object `{[type]: value}`;
an object-typed value is used as-is. -/
def normalizeRuleValue (typeKey : String) (value : JSVal) : JSVal :=
  if jsTypeofIsObject value then value else JSVal.obj [(typeKey, value)]

/-- The two properties `lookupValidator` merges into the configuration:
`attribute` (the owning attribute object) and `messageResolver` (the
resolved provider, possibly `undefined`). -/
def standardProps (attributeName : String) (resolver : Option (String → JSVal)) :
    List (String × JSVal) :=
  [("attribute", JSVal.attrRef attributeName), ("messageResolver", JSVal.resolverRef resolver)]

/-- `lookupValidator(container, obj)`.  On success it returns the
constructed instance together with the post-call state of the declared
rule value: when that value was `typeof 'object'`, `Ember.merge` has
mutated it in place into the configuration object, so the declaration
now holds the merged object; a non-object value is untouched (the
configuration is a fresh wrapper object).  `Except.error` carries the
`Ember.assert` failure for an unresolvable factory, or the `TypeError`
of merging into `null`; merging extra properties onto a non-plain
object (an array used as a rule value) is outside the model. -/
def lookupValidator (container : Container) (obj : RuleDescriptor) :
    Except String (ValidatorInstance × JSVal) :=
  match lookupValidtorFactory container obj.type with
  | none => Except.error (missingValidatorMessage obj.type)
  | some validatorClass =>
    let messageResolver := lookupMessageResolver container
    let props := standardProps obj.attr.name messageResolver
    if jsTypeofIsObject obj.value then
      match obj.value with
      | JSVal.obj fields =>
        let config := emberMerge fields props
        Except.ok (validatorClass.create obj.type config, JSVal.obj config)
      | JSVal.nul => Except.error "TypeError: cannot assign properties of null"
      | _ => Except.error "unmodelled: property assignment onto a non-plain object"
    else
      let config := emberMerge [(obj.type, obj.value)] props
      Except.ok (validatorClass.create obj.type config, obj.value)

/-- `Ember.isArray` as the engine uses it. -/
def jsIsArray : JSVal → Bool
  | JSVal.arr _ => true
  | _ => false

/-- The wrapping step of `validatorsFor`: a non-array `validations`
value is treated as the one-element list `[validations]`. -/
def rulesListOf (validations : JSVal) : List JSVal :=
  match validations with
  | JSVal.arr xs => xs
  | v => [v]

/-- The descriptor-building loop of `validatorsFor`: for each rule
object in the list, each own key becomes one
`{type, value, attribute}` entry, in enumeration order.
`Except.error` models the `TypeError` of `Object.keys(null)`. -/
def descriptorsOfRuleList (attr : Attribute) : List JSVal → Except String (List RuleDescriptor)
  | [] => Except.ok []
  | r :: rest =>
    match jsOwnKeysVals r with
    | none => Except.error "TypeError: Object.keys called on null or undefined"
    | some kvs => do
      let ds ← descriptorsOfRuleList attr rest
      Except.ok ((kvs.map (fun kv => { type := kv.1, value := kv.2, attr := attr })) ++ ds)

/-- The rule-descriptor resolution phase of `validatorsFor` (everything
before the `validators.map(lookupValidator)` call): empty metadata
(`Ember.isEmpty`) yields no descriptors, a non-array rule spec is
wrapped into a one-element list, and each rule object contributes one
descriptor per own key. -/
def descriptorsFor (attr : Attribute) : Except String (List RuleDescriptor) :=
  if jsIsEmpty attr.validation then Except.ok []
  else descriptorsOfRuleList attr (rulesListOf attr.validation)

/-- Run `lookupValidator` over the keyed rules of one rule object, in
key order, collecting the constructed instances and the post-call state
of each rule value (`Ember.merge` mutates object-typed rule values in
place). -/
def processRuleObj (container : Container) (attr : Attribute) :
    List (String × JSVal) → Except String (List ValidatorInstance × List (String × JSVal))
  | [] => Except.ok ([], [])
  | (k, v) :: rest => do
    let (inst, v') ← lookupValidator container { type := k, value := v, attr := attr }
    let (insts, rest') ← processRuleObj container attr rest
    Except.ok (inst :: insts, (k, v') :: rest')

/-- The post-call state of one rule-list entry: a plain rule object is
rebuilt with the post-call rule values (it was mutated in place); an
entry of any other shape produces only non-object rule values
(character or index properties), which `lookupValidator` never
mutates, so it is returned unchanged. -/
def rebuildRule (r : JSVal) (kvs' : List (String × JSVal)) : JSVal :=
  match r with
  | JSVal.obj _ => JSVal.obj kvs'
  | other => other

/-- Run `lookupValidator` over every rule object of the (already
wrapped) rule list, collecting instances and the post-call state of
each entry. -/
def processRuleObjs (container : Container) (attr : Attribute) :
    List JSVal → Except String (List ValidatorInstance × List JSVal)
  | [] => Except.ok ([], [])
  | r :: rest =>
    match jsOwnKeysVals r with
    | none => Except.error "TypeError: Object.keys called on null or undefined"
    | some kvs => do
      let (insts, kvs') ← processRuleObj container attr kvs
      let (instsRest, rest') ← processRuleObjs container attr rest
      Except.ok (insts ++ instsRest, rebuildRule r kvs' :: rest')

/-- `validatorsFor(attribute)`: resolve the rule descriptors for the
attribute's validation metadata and construct one validator instance
per descriptor.  Returns the instances together with the post-call
state of the validation metadata (object-typed rule values have been
merged into in place). -/
def validatorsFor (container : Container) (attr : Attribute) :
    Except String (List ValidatorInstance × JSVal) :=
  if jsIsEmpty attr.validation then Except.ok ([], attr.validation)
  else
    match attr.validation with
    | JSVal.arr vs =>
      (processRuleObjs container attr vs).map (fun p => (p.1, JSVal.arr p.2))
    | v =>
      (processRuleObjs container attr [v]).map (fun p => (p.1, p.2.headD v))

/-- Modelled from the spec: `attrName` (imported from `../utils`, not
under `src/`) extracts the field name identifying an attribute or
relationship — "Error Collection: mapping from field name to …"; the
engine records errors and reads values under this name. -/
def attrName (attr : Attribute) : String :=
  attr.name

/-- `_addError(name, result)`: append `result` to the error collection
under `name` when it is a string (`typeof result === 'string'`); any
other result shape leaves the collection untouched. -/
def _addError (errors : Errors) (name : String) (result : JSVal) : Errors :=
  match result with
  | JSVal.str s => errors ++ [(name, s)]
  | _ => errors

/-- The record being validated.  `values` backs `this.get(name)`;
`errors` is the Error Collection; `isValid`/`isDeleted`/`isDirty`/
`inFlight` are the state-machine flags the mixin reads and transitions
(`send('becameValid')`, `send('willCommit')`, `send('becomeDirty')`,
`errors.trigger('becameInvalid')` are modelled as the corresponding
flag updates); `modelName` is `this.constructor.modelName ||
this.constructor.typeKey`. -/
structure Model where
  attributes : List Attribute
  relationships : List Attribute
  values : List (String × JSVal)
  errors : Errors
  isValid : Bool
  isDeleted : Bool
  isDirty : Bool
  inFlight : Bool
  modelName : String

/-- `this.get(name)` for a field value (`undefined` when unset). -/
def getValue (model : Model) (name : String) : JSVal :=
  match model.values.find? (fun p => p.1 = name) with
  | some p => p.2
  | none => JSVal.undef

/-- `_validateAttribute(attribute)`, with the error collection passed
explicitly (the code reads `this.get('errors')`, which this pass
threads): build the validators, stamp `attribute.parentTypeKey`, run
every validator on the attribute's current value and record each string
result.  Returns the grown error collection and the post-call attribute
(stamped, with its validation metadata possibly mutated by the merge in
`lookupValidator`). -/
def _validateAttribute (container : Container) (model : Model) (errors : Errors)
    (attr : Attribute) : Except String (Errors × Attribute) := do
  let (validators, meta') ← validatorsFor container attr
  let name := attrName attr
  let attr' : Attribute :=
    { name := attr.name, validation := meta', parentTypeKey := some model.modelName }
  let errors' := validators.foldl
    (fun errs validator => _addError errs name (validator.validate name (getValue model name)))
    errors
  Except.ok (errors', attr')

/-- The `eachAttribute`/`eachRelationship` loop of `validate`: run
`_validateAttribute` over a list of attributes, threading the error
collection and collecting the post-call attributes. -/
def validateAttrs (container : Container) (model : Model) :
    Errors → List Attribute → Except String (Errors × List Attribute)
  | errors, [] => Except.ok (errors, [])
  | errors, attr :: rest => do
    let (errors₁, attr') ← _validateAttribute container model errors attr
    let (errors₂, rest') ← validateAttrs container model errors₁ rest
    Except.ok (errors₂, attr' :: rest')

/-- Step 1 of `validate`: a record that is not currently valid is sent
`becameValid` and its error collection is cleared (`errors._clear()`),
so stale failures never leak into the new pass. -/
def clearIfInvalid (model : Model) : Model :=
  if model.isValid then model
  else { model with isValid := true, errors := ([] : Errors) }

/-- Steps 4–7 of `validate`: run `_validateAttribute` over every
attribute, then every relationship (relationships go through the exact
same path), compute `isValid` from the error collection, and on
failure signal `becomeDirty` and trigger `becameInvalid`. -/
def runValidationPass (container : Container) (m : Model) : Except String (Bool × Model) := do
  let (errors₁, attrs') ← validateAttrs container m m.errors m.attributes
  let (errors₂, rels') ← validateAttrs container m errors₁ m.relationships
  let isValid := errors₂.isEmpty
  let m₂ := { m with attributes := attrs', relationships := rels', errors := errors₂ }
  let m₃ := if isValid then m₂ else { m₂ with isDirty := true, isValid := false }
  Except.ok (isValid, m₃)

/-- `validate({willCommit=true})`: clear stale errors of a
previously-invalid record, short-circuit deleted records, optionally
signal `willCommit` (modelled as the in-flight flag), then run the
validation pass.  Returns the boolean the method returns together with
the post-call record state; `Except.error` propagates the
`Ember.assert` of an unresolvable validator factory. -/
def validate (container : Container) (model : Model) (willCommit : Bool) :
    Except String (Bool × Model) :=
  let m₀ := clearIfInvalid model
  if m₀.isDeleted then Except.ok (true, m₀)
  else
    runValidationPass container (if willCommit then { m₀ with inFlight := true } else m₀)

/-- Modelled from the spec: the default message catalog
(`defaultMessages`, imported from `../messages`, not under `src/`)
carries "a built-in default error string" under the key `error`. -/
def defaultMessagesError : String :=
  "Invalid Document"

/-- Modelled from the spec: `ValidationError` (imported from
`../error`, not under `src/`) "wraps a single top-level message plus a
reference to the Error Collection at the moment of failure; immutable
after construction". -/
structure ValidationError where
  message : JSVal
  errors : Errors

/-- `createValidationError(model)`: resolve the message resolver and
ask it for the `error` message, substituting the built-in default when
that message is empty; wrap it with the record's error collection.
`none` models the `TypeError` thrown when no message resolver resolves
at all (`messageResolver.resolveMessage` on `undefined`). -/
def createValidationError (container : Container) (model : Model) : Option ValidationError :=
  match lookupMessageResolver container with
  | none => none
  | some resolveMessage =>
    let message := resolveMessage "error"
    let message := if jsIsEmpty message then JSVal.str defaultMessagesError else message
    some { message := message, errors := model.errors }

/-- The outcome of `save`: delegation to the underlying commit
operation (`this._super()`, an external collaborator of result type
`α`), a rejected promise carrying a `ValidationError`
(`Ember.RSVP.reject(createValidationError(this))`), or a synchronous
exception. -/
inductive SaveOutcome (α : Type) where
  | resolvedCommit (result : α)
  | rejected (error : ValidationError)
  | thrown (message : String)

/-- `save({validate=true})`: bypass validation when asked, otherwise
run `validate()` (with its default `willCommit=true`) and either
delegate to the commit operation or reject with the validation
error.  The commit operation is a parameter; it is applied only on the
delegation paths. -/
def save {α : Type} (container : Container) (commitOp : Model → α) (model : Model)
    (validateFlag : Bool) : SaveOutcome α :=
  if !validateFlag then SaveOutcome.resolvedCommit (commitOp model)
  else
    match validate container model true with
    | Except.error e => SaveOutcome.thrown e
    | Except.ok (true, m') => SaveOutcome.resolvedCommit (commitOp m')
    | Except.ok (false, m') =>
      match createValidationError container m' with
      | some err => SaveOutcome.rejected err
      | none => SaveOutcome.thrown "TypeError: cannot call resolveMessage of undefined"

/-! Concrete external collaborators used to exercise the engine: a few
validator factories of the shapes the addon ships (`presence`,
`numeric`, `range`), a message resolver with an empty catalog, and the
containers registering them. -/

/-- A `presence` validator: blank and absent values fail. -/
def presenceFactory : ValidatorFactory :=
  { validateOf := fun _ _ v =>
      match v with
      | JSVal.str s => if s.isEmpty then JSVal.str "can't be blank" else JSVal.undef
      | JSVal.undef => JSVal.str "can't be blank"
      | JSVal.nul => JSVal.str "can't be blank"
      | _ => JSVal.undef }

/-- A `numeric` validator: negative and non-numeric values fail. -/
def numericFactory : ValidatorFactory :=
  { validateOf := fun _ _ v =>
      match v with
      | JSVal.num n => if n < 0 then JSVal.str "must be a positive number" else JSVal.undef
      | _ => JSVal.str "must be a number" }

/-- A `range` validator: values below the minimum fail. -/
def rangeFactory : ValidatorFactory :=
  { validateOf := fun _ _ v =>
      match v with
      | JSVal.num n => if n < 0 then JSVal.str "must be greater than 0" else JSVal.undef
      | _ => JSVal.undef }

/-- A message resolver whose catalog is empty: every key resolves to
`undefined`. -/
def emptyCatalogResolve : String → JSVal :=
  fun _ => JSVal.undef

/-- A container registering the three validators above and the empty
message resolver under their primary names. -/
def testContainer : Container :=
  { lookup := fun s =>
      if s = "resolver:validation-message" then some emptyCatalogResolve else none,
    lookupFactory := fun s =>
      if s = "validator:presence" then some presenceFactory
      else if s = "validator:numeric" then some numericFactory
      else if s = "validator:range" then some rangeFactory
      else none }

/-- A container in which nothing resolves. -/
def emptyContainer : Container :=
  { lookup := fun _ => none, lookupFactory := fun _ => none }

/-- A record with one attribute `name` declared `{presence: true}`
(shorthand scalar syntax) whose current value is the empty string. -/
def blankNameModel : Model :=
  { attributes := [{ name := "name", validation := JSVal.obj [("presence", JSVal.bool true)],
                     parentTypeKey := none }],
    relationships := [],
    values := [("name", JSVal.str "")],
    errors := [],
    isValid := true,
    isDeleted := false,
    isDirty := false,
    inFlight := false,
    modelName := "user" }

/-- The state of `blankNameModel` after one failing `validate()` pass. -/
def blankNameModelAfter : Model :=
  { attributes := [{ name := "name", validation := JSVal.obj [("presence", JSVal.bool true)],
                     parentTypeKey := some "user" }],
    relationships := [],
    values := [("name", JSVal.str "")],
    errors := [("name", "can't be blank")],
    isValid := false,
    isDeleted := false,
    isDirty := true,
    inFlight := true,
    modelName := "user" }

/-- A container that registers the validators but no message resolver
under either name. -/
def noResolverContainer : Container :=
  { lookup := fun _ => none, lookupFactory := testContainer.lookupFactory }

/-- A deleted record that was previously marked invalid and still holds
a stale error entry. -/
def deletedInvalidModel : Model :=
  { attributes := [], relationships := [], values := [],
    errors := [("name", "stale")],
    isValid := false, isDeleted := true, isDirty := false, inFlight := false,
    modelName := "user" }

/-- A deleted record that is currently valid, with an empty error
collection. -/
def deletedValidModel : Model :=
  { attributes := [], relationships := [], values := [],
    errors := [],
    isValid := true, isDeleted := true, isDirty := false, inFlight := false,
    modelName := "user" }

/-- An attribute whose single declared rule is the shorthand
`{length: 0}`. -/
def lengthZeroAttr : Attribute :=
  { name := "token", validation := JSVal.obj [("length", JSVal.num 0)], parentTypeKey := none }

/-- The `age` attribute of the spec's scenario: declared
`[{numeric: true}, {range: {min: 0}}]`. -/
def ageAttr : Attribute :=
  { name := "age",
    validation := JSVal.arr
      [JSVal.obj [("numeric", JSVal.bool true)],
       JSVal.obj [("range", JSVal.obj [("min", JSVal.num 0)])]],
    parentTypeKey := none }

/-- A record carrying `ageAttr` with current value `-5`. -/
def ageModel : Model :=
  { attributes := [ageAttr], relationships := [],
    values := [("age", JSVal.num (-5))],
    errors := [],
    isValid := true, isDeleted := false, isDirty := false, inFlight := false,
    modelName := "person" }

/-- An attribute placeholder for rule descriptors in unit statements. -/
def plainAttr : Attribute :=
  { name := "field", validation := JSVal.undef, parentTypeKey := none }

/-- The string results among a list of validator outcomes (a validator
signals failure exactly by returning a string). -/
def strOf : JSVal → Option String
  | JSVal.str s => some s
  | _ => none

/-- The numeric content of a JS value (`typeof v === 'number'`). -/
def numOf : JSVal → Option Int
  | JSVal.num n => some n
  | _ => none

/-- The object branch of `Ember.isEmpty`, as a function of the
object's numeric `size`/`length` properties. -/
def emptyByNumProp (fields : List (String × JSVal)) : Bool :=
  match numProp fields "size" with
  | some n => n == 0
  | none =>
    match numProp fields "length" with
    | some n => n == 0
    | none => false

/-! General lemmas about the embedded operations. -/

theorem messagesFor_append (a b : Errors) (n : String) :
    messagesFor (a ++ b) n = messagesFor a n ++ messagesFor b n := by
  simp [messagesFor, List.filter_append]

theorem messagesFor_map_self (ss : List String) (n : String) :
    messagesFor (ss.map (fun s => (n, s))) n = ss := by
  induction ss with
  | nil => rfl
  | cons s rest ih => simp [messagesFor] at ih ⊢; exact ih

theorem bool_eq_false_of_not_true {b : Bool} (h : ¬(b = true)) : b = false := by
  cases b
  · rfl
  · exact absurd rfl h

theorem lookupField_nil (k : String) : lookupField [] k = none := rfl

theorem lookupField_cons (k₀ : String) (v₀ : JSVal) (rest : List (String × JSVal)) (k : String) :
    lookupField ((k₀, v₀) :: rest) k = if k₀ = k then some v₀ else lookupField rest k := rfl

theorem lookupField_append (a b : List (String × JSVal)) (k : String) :
    lookupField (a ++ b) k =
      match lookupField a k with
      | some v => some v
      | none => lookupField b k := by
  induction a with
  | nil => rfl
  | cons p rest ih =>
    obtain ⟨k₀, v₀⟩ := p
    by_cases hp : k₀ = k <;> simp [lookupField_cons, hp, ih]

theorem lookupField_map_set (fs : List (String × JSVal)) (k : String) (v : JSVal) :
    lookupField (fs.map (fun p => if p.1 = k then (k, v) else p)) k =
      (lookupField fs k).map (fun _ => v) := by
  induction fs with
  | nil => rfl
  | cons p rest ih =>
    obtain ⟨k₀, v₀⟩ := p
    by_cases hp : k₀ = k
    · subst hp
      simp [lookupField_cons]
    · simp [lookupField_cons, hp, ih]

theorem lookupField_map_set_other (fs : List (String × JSVal)) (k : String) (v : JSVal)
    (k' : String) (h : k' ≠ k) :
    lookupField (fs.map (fun p => if p.1 = k then (k, v) else p)) k' = lookupField fs k' := by
  induction fs with
  | nil => rfl
  | cons p rest ih =>
    obtain ⟨k₀, v₀⟩ := p
    by_cases hp : k₀ = k
    · subst hp
      simp [lookupField_cons, Ne.symm h, ih]
    · by_cases hq : k₀ = k' <;> simp [lookupField_cons, hp, hq, ih, h]

theorem lookupField_isSome_of_any (fs : List (String × JSVal)) (k : String)
    (h : fs.any (fun p => p.1 = k) = true) : ∃ w, lookupField fs k = some w := by
  induction fs with
  | nil => simp at h
  | cons p rest ih =>
    obtain ⟨k₀, v₀⟩ := p
    by_cases hp : k₀ = k
    · exact ⟨v₀, by simp [lookupField_cons, hp]⟩
    · simp [hp] at h
      obtain ⟨w, hw⟩ := ih (by simpa using h)
      exact ⟨w, by simp [lookupField_cons, hp, hw]⟩

theorem lookupField_none_of_any_false (fs : List (String × JSVal)) (k : String)
    (h : fs.any (fun p => p.1 = k) = false) : lookupField fs k = none := by
  induction fs with
  | nil => rfl
  | cons p rest ih =>
    obtain ⟨k₀, v₀⟩ := p
    simp only [List.any_cons, Bool.or_eq_false_iff, decide_eq_false_iff_not] at h
    simp [lookupField_cons, h.1, ih (by simpa using h.2)]

theorem lookupField_setProp_self (fs : List (String × JSVal)) (k : String) (v : JSVal) :
    lookupField (setProp fs k v) k = some v := by
  unfold setProp
  by_cases h : fs.any (fun p => p.1 = k) = true
  · obtain ⟨w, hw⟩ := lookupField_isSome_of_any fs k h
    simp [h, lookupField_map_set, hw]
  · rw [if_neg h, lookupField_append,
      lookupField_none_of_any_false fs k (bool_eq_false_of_not_true h)]
    simp [lookupField_cons]

theorem lookupField_setProp_other (fs : List (String × JSVal)) (k k' : String) (v : JSVal)
    (h : k' ≠ k) : lookupField (setProp fs k v) k' = lookupField fs k' := by
  unfold setProp
  by_cases ha : fs.any (fun p => p.1 = k) = true
  · simp [ha, lookupField_map_set_other fs k v k' h]
  · rw [if_neg ha, lookupField_append]
    cases hf : lookupField fs k' <;> simp [lookupField_cons, lookupField_nil, Ne.symm h]

theorem except_bind_ok {ε α β : Type} (a : α) (f : α → Except ε β) :
    ((Except.ok a : Except ε α) >>= f) = f a := rfl

theorem except_bind_error {ε α β : Type} (e : ε) (f : α → Except ε β) :
    ((Except.error e : Except ε α) >>= f) = Except.error e := rfl

theorem length_flatMap_map {α β : Type} (xs : List (List α)) (g : α → β) :
    (xs.flatMap (fun fs => fs.map g)).length = (xs.map List.length).sum := by
  induction xs with
  | nil => rfl
  | cons fs rest ih => simp [List.flatMap_cons, ih]

theorem emberMerge_standardProps (base : List (String × JSVal)) (an : String)
    (r : Option (String → JSVal)) :
    emberMerge base (standardProps an r) =
      setProp (setProp base "attribute" (JSVal.attrRef an))
        "messageResolver" (JSVal.resolverRef r) := rfl

theorem lookupField_merge_attribute (base : List (String × JSVal)) (an : String)
    (r : Option (String → JSVal)) :
    lookupField (emberMerge base (standardProps an r)) "attribute" =
      some (JSVal.attrRef an) := by
  rw [emberMerge_standardProps,
    lookupField_setProp_other _ _ _ _ (by decide), lookupField_setProp_self]

theorem lookupField_merge_messageResolver (base : List (String × JSVal)) (an : String)
    (r : Option (String → JSVal)) :
    lookupField (emberMerge base (standardProps an r)) "messageResolver" =
      some (JSVal.resolverRef r) := by
  rw [emberMerge_standardProps, lookupField_setProp_self]

theorem emberMerge_standardProps_absent (fs : List (String × JSVal)) (an : String)
    (r : Option (String → JSVal))
    (h₁ : fs.any (fun p => p.1 = "attribute") = false)
    (h₂ : fs.any (fun p => p.1 = "messageResolver") = false) :
    emberMerge fs (standardProps an r) =
      fs ++ [("attribute", JSVal.attrRef an), ("messageResolver", JSVal.resolverRef r)] := by
  rw [emberMerge_standardProps]
  unfold setProp
  have c₁ : ¬(fs.any (fun p => p.1 = "attribute") = true) := by simp [h₁]
  rw [if_neg c₁]
  have c₂ : ¬((fs ++ [("attribute", JSVal.attrRef an)]).any
      (fun p => p.1 = "messageResolver") = true) := by
    simp [List.any_append, h₂]
  rw [if_neg c₂]
  simp

/-- On success, `lookupValidator` on a rule value that is not `typeof
'object'` builds the configuration as the fresh wrapper `{[type]:
value}` merged with the standard properties, and leaves the declared
rule value unchanged. -/
theorem lookupValidator_scalar_eq (c : Container) (d : RuleDescriptor) (f : ValidatorFactory)
    (h : lookupValidtorFactory c d.type = some f) (h0 : jsTypeofIsObject d.value = false) :
    lookupValidator c d = Except.ok
      (f.create d.type (emberMerge [(d.type, d.value)]
        (standardProps d.attr.name (lookupMessageResolver c))), d.value) := by
  simp [lookupValidator, h, h0]

/-- On success, `lookupValidator` on a plain-object rule value merges
the standard properties into that object in place: the configuration
and the post-call declared rule value are the same merged object. -/
theorem lookupValidator_obj_eq (c : Container) (d : RuleDescriptor) (f : ValidatorFactory)
    (h : lookupValidtorFactory c d.type = some f) (fs : List (String × JSVal))
    (hv : d.value = JSVal.obj fs) :
    lookupValidator c d = Except.ok
      (f.create d.type (emberMerge fs (standardProps d.attr.name (lookupMessageResolver c))),
       JSVal.obj (emberMerge fs (standardProps d.attr.name (lookupMessageResolver c)))) := by
  simp [lookupValidator, h, hv, jsTypeofIsObject]

theorem descriptorsOfRuleList_objs (a : Attribute) (ruleObjs : List (List (String × JSVal))) :
    descriptorsOfRuleList a (ruleObjs.map JSVal.obj) =
      Except.ok (ruleObjs.flatMap (fun fs => fs.map
        (fun kv => ({ type := kv.1, value := kv.2, attr := a } : RuleDescriptor)))) := by
  induction ruleObjs with
  | nil => rfl
  | cons fs rest ih =>
    simp [descriptorsOfRuleList, jsOwnKeysVals, ih, except_bind_ok]

/-- Sanity check: the `{presence: true}` scenario evaluates as the spec
describes — `validate()` returns `false`, one message is recorded, the
record is dirty, in flight and invalid. -/
theorem blankNameModel_validate_eval :
    validate testContainer blankNameModel true = Except.ok (false, blankNameModelAfter) := rfl

/-- Claim C1 — counterexample.  A deleted record that was previously
invalid does not keep its Error Collection untouched: `validate()`
clears the stale entry before the deleted-record short-circuit. -/
theorem validate_deleted_counterexample :
    validate emptyContainer deletedInvalidModel true =
      Except.ok (true, { deletedInvalidModel with isValid := true, errors := ([] : Errors) }) ∧
    deletedInvalidModel.errors ≠ ([] : Errors) := by
  refine ⟨rfl, ?_⟩
  simp [deletedInvalidModel]

/-- Claim C1 (amended): for every Record whose status is deleted,
`validate()` returns true without running any validator (the result
does not depend on the container, so no validator is consulted); the
Error Collection is left untouched when the Record was previously
valid, but when it was previously invalid the collection is cleared
(and the record signalled `becameValid`) before the short-circuit. -/
theorem validate_deleted_short_circuit (c : Container) (m : Model) (w : Bool)
    (h : m.isDeleted = true) :
    validate c m w = Except.ok (true,
      if m.isValid then m else { m with isValid := true, errors := ([] : Errors) }) := by
  cases hv : m.isValid <;> simp [validate, clearIfInvalid, hv, h]

/-- Witness for the amended C1 theorem, at a previously-valid deleted
record: the call succeeds and the record is returned untouched. -/
theorem validate_deleted_short_circuit_witness :
    validate emptyContainer deletedValidModel true = Except.ok (true,
      if deletedValidModel.isValid then deletedValidModel
      else { deletedValidModel with isValid := true, errors := ([] : Errors) }) :=
  validate_deleted_short_circuit emptyContainer deletedValidModel true rfl

/-- Claim C3: when a declared rule-type key resolves to no validator
factory under `validator:<key>` or the vendored fallback name,
`lookupValidator` halts with the `Ember.assert` failure, whose message
spells out the missing key; it never returns an instance. -/
theorem lookupValidator_unresolved (c : Container) (d : RuleDescriptor)
    (h₁ : c.lookupFactory ("validator:" ++ d.type) = none)
    (h₂ : c.lookupFactory ("ember-cli-data-validation@validator:" ++ d.type) = none) :
    lookupValidator c d = Except.error (missingValidatorMessage d.type) ∧
    missingValidatorMessage d.type = "Could not find Validator `" ++ d.type ++ "`." := by
  refine ⟨?_, rfl⟩
  simp [lookupValidator, lookupValidtorFactory, h₁, h₂, Option.orElse]

/-- Witness for C3 at an unregistered key. -/
theorem lookupValidator_unresolved_witness :
    lookupValidator emptyContainer
        { type := "nonexistent", value := JSVal.bool true, attr := plainAttr } =
      Except.error (missingValidatorMessage "nonexistent") ∧
    missingValidatorMessage "nonexistent" =
      "Could not find Validator `" ++ "nonexistent" ++ "`." :=
  lookupValidator_unresolved emptyContainer
    { type := "nonexistent", value := JSVal.bool true, attr := plainAttr } rfl rfl

/-- Claim C4 — counterexample.  With validators registered but no
message-resolver provider under either lookup name,
`createValidationError` does not succeed with the default message: it
fails (the JS code throws calling `resolveMessage` on `undefined`), and
the commit-guard path of `save()` surfaces that exception instead of a
rejection. -/
theorem createValidationError_absent_resolver_counterexample :
    createValidationError noResolverContainer blankNameModelAfter = none ∧
    save noResolverContainer (fun _ => ()) blankNameModel true =
      SaveOutcome.thrown "TypeError: cannot call resolveMessage of undefined" := by
  exact ⟨rfl, rfl⟩

/-- Claim C4 (amended): if no message-resolver provider resolves under
either lookup name, constructing the commit-rejection Validation Error
fails (a `TypeError`) rather than succeeding; the built-in default
error string is substituted only when a provider resolves but yields an
empty message for the `error` key. -/
theorem createValidationError_default_message (c : Container) (m : Model) :
    (lookupMessageResolver c = none → createValidationError c m = none) ∧
    (∀ r, lookupMessageResolver c = some r → jsIsEmpty (r "error") = true →
      createValidationError c m =
        some { message := JSVal.str defaultMessagesError, errors := m.errors }) := by
  constructor
  · intro h
    simp [createValidationError, h]
  · intro r hr he
    simp [createValidationError, hr, he]

/-- Witness for the amended C4 theorem: the test container's resolver
has an empty catalog, so the constructed error carries the built-in
default message. -/
theorem createValidationError_default_message_witness :
    createValidationError testContainer blankNameModelAfter =
      some { message := JSVal.str defaultMessagesError, errors := blankNameModelAfter.errors } :=
  (createValidationError_default_message testContainer blankNameModelAfter).2
    emptyCatalogResolve rfl rfl

/-- Claim C7: a validator invocation grows the Error Collection under
the field's name exactly when its result is a string — a string result
`s` appends one entry `(name, s)` (so the field's message list grows by
`[s]`), and any non-string result leaves the collection unchanged and
raises nothing. -/
theorem addError_strings_only (errors : Errors) (name : String) (result : JSVal) :
    (∀ s, result = JSVal.str s →
      _addError errors name result = errors ++ [(name, s)] ∧
      messagesFor (_addError errors name result) name = messagesFor errors name ++ [s]) ∧
    ((∀ s, result ≠ JSVal.str s) → _addError errors name result = errors) := by
  constructor
  · intro s hs
    subst hs
    refine ⟨rfl, ?_⟩
    simp [_addError, messagesFor, List.filter_append]
  · intro h
    cases result <;> first
      | rfl
      | exact absurd rfl (h _)

/-- Witness for C7: a string result appends the message, a numeric
result is ignored. -/
theorem addError_strings_only_witness :
    (_addError [] "name" (JSVal.str "is invalid") = [("name", "is invalid")] ∧
      messagesFor (_addError [] "name" (JSVal.str "is invalid")) "name" =
        messagesFor ([] : Errors) "name" ++ ["is invalid"]) ∧
    _addError [] "name" (JSVal.num 3) = [] := by
  constructor
  · exact (addError_strings_only [] "name" (JSVal.str "is invalid")).1 "is invalid" rfl
  · exact (addError_strings_only [] "name" (JSVal.num 3)).2 (fun _ h => nomatch h)

/-- Claim C2: when `save()` runs with its default validation and the
validation pass reports failure, the outcome is a rejection carrying a
Validation Error whose `errors` field is the Record's Error Collection
at that moment, and the underlying commit operation is never invoked —
the outcome is the same whatever the commit operation would do. -/
theorem save_commit_guard {α : Type} (c : Container) (commitOp : Model → α)
    (m m₁ : Model) (r : String → JSVal)
    (hr : lookupMessageResolver c = some r)
    (hv : validate c m true = Except.ok (false, m₁)) :
    (∃ msg, save c commitOp m true =
      SaveOutcome.rejected { message := msg, errors := m₁.errors }) ∧
    (∀ commitOp₂ : Model → α, save c commitOp m true = save c commitOp₂ m true) := by
  have hsave : save c commitOp m true = SaveOutcome.rejected
      { message := if jsIsEmpty (r "error") then JSVal.str defaultMessagesError else r "error",
        errors := m₁.errors } := by
    simp [save, hv, createValidationError, hr]
  refine ⟨⟨_, hsave⟩, ?_⟩
  intro commitOp₂
  rw [hsave]
  simp [save, hv, createValidationError, hr]

/-- Witness for C2 at the `{presence: true}` record: the save is
rejected with the record's single recorded error. -/
theorem save_commit_guard_witness :
    (∃ msg, save testContainer (fun _ => ()) blankNameModel true =
      SaveOutcome.rejected { message := msg, errors := blankNameModelAfter.errors }) ∧
    (∀ commitOp₂ : Model → Unit,
      save testContainer (fun _ => ()) blankNameModel true =
        save testContainer commitOp₂ blankNameModel true) :=
  save_commit_guard testContainer (fun _ => ()) blankNameModel blankNameModelAfter
    emptyCatalogResolve rfl rfl

theorem _addError_str (errors : Errors) (name s : String) :
    _addError errors name (JSVal.str s) = errors ++ [(name, s)] := rfl

theorem _addError_of_strOf_none (errors : Errors) (name : String) (r : JSVal)
    (h : strOf r = none) : _addError errors name r = errors := by
  cases r <;> first
    | rfl
    | simp [strOf] at h

theorem strOf_eq_some {r : JSVal} {s : String} (h : strOf r = some s) : r = JSVal.str s := by
  cases r <;> simp [strOf] at h
  rw [h]

theorem foldl_addError_eq (errs : Errors) (name : String) (results : List JSVal) :
    results.foldl (fun e r => _addError e name r) errs =
      errs ++ (results.filterMap strOf).map (fun s => (name, s)) := by
  induction results generalizing errs with
  | nil => simp
  | cons r rest ih =>
    rw [List.foldl_cons]
    cases hr : strOf r with
    | none =>
      rw [_addError_of_strOf_none errs name r hr, ih]
      simp [List.filterMap_cons, hr]
    | some s =>
      rw [strOf_eq_some hr, _addError_str, ih]
      simp [List.filterMap_cons, strOf, List.append_assoc]

/-- Claim C8: validating one field runs every one of its resolved
validators with no short-circuiting — the resulting Error Collection is
the starting one extended by one entry per string-returning validator,
in rule order (so a field failing k rules gains exactly k messages, all
preserved, in a single pass). -/
theorem validateAttribute_no_short_circuit (c : Container) (m : Model) (errors : Errors)
    (attr : Attribute) (insts : List ValidatorInstance) (meta' : JSVal)
    (h : validatorsFor c attr = Except.ok (insts, meta')) :
    _validateAttribute c m errors attr = Except.ok
      (errors ++ ((insts.map (fun i => i.validate (attrName attr)
          (getValue m (attrName attr)))).filterMap strOf).map (fun s => (attrName attr, s)),
       ⟨attr.name, meta', some m.modelName⟩) ∧
    messagesFor (errors ++ ((insts.map (fun i => i.validate (attrName attr)
        (getValue m (attrName attr)))).filterMap strOf).map (fun s => (attrName attr, s)))
      (attrName attr) =
      messagesFor errors (attrName attr) ++
        (insts.map (fun i => i.validate (attrName attr)
          (getValue m (attrName attr)))).filterMap strOf := by
  have hfold : insts.foldl (fun e i => _addError e (attrName attr)
        (i.validate (attrName attr) (getValue m (attrName attr)))) errors =
      errors ++ ((insts.map (fun i => i.validate (attrName attr)
        (getValue m (attrName attr)))).filterMap strOf).map (fun s => (attrName attr, s)) := by
    rw [← foldl_addError_eq, List.foldl_map]
  constructor
  · simp only [_validateAttribute, h, except_bind_ok]
    rw [hfold]
  · rw [messagesFor_append, messagesFor_map_self]

/-- Witness for C8: the spec's `age` scenario — two declared rules,
value `-5`, both validators fail, two messages recorded under `age`. -/
theorem validateAttribute_no_short_circuit_witness :
    ∃ e a, _validateAttribute testContainer ageModel [] ageAttr = Except.ok (e, a) ∧
      messagesFor e "age" = ["must be a positive number", "must be greater than 0"] := by
  obtain ⟨h1, h2⟩ :=
    validateAttribute_no_short_circuit testContainer ageModel [] ageAttr _ _ rfl
  exact ⟨_, _, h1, h2.trans (by rfl)⟩

/-- Claim C5 — counterexample.  A single rule object whose only
declared (rule object, key) pair is the shorthand `{length: 0}` is
classified empty by `Ember.isEmpty` (it has a numeric `length` property
equal to 0), so rule-descriptor resolution yields zero descriptors even
though one pair is declared. -/
theorem descriptorsFor_counterexample :
    descriptorsFor lengthZeroAttr = Except.ok [] ∧
    jsOwnKeysVals lengthZeroAttr.validation = some [("length", JSVal.num 0)] := by
  exact ⟨rfl, rfl⟩

/-- Claim C5 (amended): rule-descriptor resolution yields one
descriptor per declared (rule object, key) pair, in declaration order
and then key enumeration order — absent or `Ember.isEmpty` metadata
yields zero descriptors, a single rule object is treated as a
one-element list, and a list of N rule objects yields exactly the
concatenation of their key lists — except that a single (non-array)
rule object that `Ember.isEmpty` classifies as empty (a numeric `size`
or `length` property equal to 0, e.g. shorthand `{length: 0}`) is
treated as absent metadata and yields zero descriptors. -/
theorem descriptorsFor_rule_expansion (name : String) (pk : Option String) :
    (∀ v, jsIsEmpty v = true →
      descriptorsFor ⟨name, v, pk⟩ = Except.ok []) ∧
    (∀ fs, jsIsEmpty (JSVal.obj fs) = false →
      descriptorsFor ⟨name, JSVal.obj fs, pk⟩ =
        Except.ok (fs.map (fun kv =>
          (⟨kv.1, kv.2, ⟨name, JSVal.obj fs, pk⟩⟩ : RuleDescriptor)))) ∧
    (∀ ruleObjs : List (List (String × JSVal)),
      descriptorsFor ⟨name, JSVal.arr (ruleObjs.map JSVal.obj), pk⟩ =
        Except.ok (ruleObjs.flatMap (fun fs => fs.map (fun kv =>
          (⟨kv.1, kv.2, ⟨name, JSVal.arr (ruleObjs.map JSVal.obj), pk⟩⟩ : RuleDescriptor)))) ∧
      (ruleObjs.flatMap (fun fs => fs.map (fun kv =>
          (⟨kv.1, kv.2, ⟨name, JSVal.arr (ruleObjs.map JSVal.obj), pk⟩⟩ :
            RuleDescriptor)))).length =
        (ruleObjs.map List.length).sum) := by
  refine ⟨?_, ?_, ?_⟩
  · intro v h
    simp [descriptorsFor, h]
  · intro fs h
    simp [descriptorsFor, h, rulesListOf, descriptorsOfRuleList, jsOwnKeysVals, except_bind_ok]
  · intro ruleObjs
    constructor
    · cases ruleObjs with
      | nil => rfl
      | cons fs rest =>
        have h1 : descriptorsFor ⟨name, JSVal.arr ((fs :: rest).map JSVal.obj), pk⟩ =
            descriptorsOfRuleList ⟨name, JSVal.arr ((fs :: rest).map JSVal.obj), pk⟩
              ((fs :: rest).map JSVal.obj) := rfl
        rw [h1, descriptorsOfRuleList_objs]
    · exact length_flatMap_map ruleObjs _

/-- Witness for the amended C5 theorem: a single `{presence: true}`
rule object yields exactly its one descriptor. -/
theorem descriptorsFor_rule_expansion_witness :
    descriptorsFor ⟨"name", JSVal.obj [("presence", JSVal.bool true)], none⟩ =
      Except.ok [⟨"presence", JSVal.bool true,
        ⟨"name", JSVal.obj [("presence", JSVal.bool true)], none⟩⟩] :=
  (descriptorsFor_rule_expansion "name" none).2.1 [("presence", JSVal.bool true)] rfl

/-- Claim C6: the configuration passed to the validator constructor is
normalized — a rule value that is not `typeof 'object'` is wrapped as
`{[ruleType]: ruleValue}` (shorthand scalar syntax), an object value is
used as-is (explicit object syntax), normalization is idempotent, and
in both cases the configuration is the normalized object's fields
merged (`Ember.merge`) with the `attribute` reference and the
`messageResolver`, both of which are then retrievable from the
configuration — so both syntaxes reach the constructor as the same
uniform merged-object shape. -/
theorem lookupValidator_config_normalized (c : Container) (d : RuleDescriptor)
    (f : ValidatorFactory) (h : lookupValidtorFactory c d.type = some f) :
    (jsTypeofIsObject d.value = false →
      lookupValidator c d = Except.ok
        (f.create d.type (emberMerge [(d.type, d.value)]
          (standardProps d.attr.name (lookupMessageResolver c))), d.value) ∧
      normalizeRuleValue d.type d.value = JSVal.obj [(d.type, d.value)]) ∧
    (∀ fs, d.value = JSVal.obj fs →
      lookupValidator c d = Except.ok
        (f.create d.type (emberMerge fs (standardProps d.attr.name (lookupMessageResolver c))),
         JSVal.obj (emberMerge fs (standardProps d.attr.name (lookupMessageResolver c)))) ∧
      normalizeRuleValue d.type d.value = d.value) ∧
    (∀ k v, normalizeRuleValue k (normalizeRuleValue k v) = normalizeRuleValue k v) ∧
    (∀ base, lookupField (emberMerge base (standardProps d.attr.name (lookupMessageResolver c)))
        "attribute" = some (JSVal.attrRef d.attr.name) ∧
      lookupField (emberMerge base (standardProps d.attr.name (lookupMessageResolver c)))
        "messageResolver" = some (JSVal.resolverRef (lookupMessageResolver c))) := by
  refine ⟨?_, ?_, ?_, ?_⟩
  · intro h0
    exact ⟨lookupValidator_scalar_eq c d f h h0, by simp [normalizeRuleValue, h0]⟩
  · intro fs hv
    refine ⟨lookupValidator_obj_eq c d f h fs hv, ?_⟩
    simp [normalizeRuleValue, hv, jsTypeofIsObject]
  · intro k v
    cases ht : jsTypeofIsObject v
    · have h1 : normalizeRuleValue k v = JSVal.obj [(k, v)] := by
        unfold normalizeRuleValue
        rw [if_neg (by simp [ht])]
      rw [h1]
      rfl
    · have h1 : normalizeRuleValue k v = v := by
        unfold normalizeRuleValue
        rw [if_pos ht]
      rw [h1]
      exact h1
  · intro base
    exact ⟨lookupField_merge_attribute base d.attr.name (lookupMessageResolver c),
      lookupField_merge_messageResolver base d.attr.name (lookupMessageResolver c)⟩

/-- Witness for C6 at the shorthand rule `{presence: true}`. -/
theorem lookupValidator_config_normalized_witness :
    lookupValidator testContainer
        { type := "presence", value := JSVal.bool true, attr := plainAttr } =
      Except.ok (presenceFactory.create "presence" (emberMerge [("presence", JSVal.bool true)]
        (standardProps "field" (lookupMessageResolver testContainer))), JSVal.bool true) ∧
    normalizeRuleValue "presence" (JSVal.bool true) =
      JSVal.obj [("presence", JSVal.bool true)] :=
  (lookupValidator_config_normalized testContainer
    { type := "presence", value := JSVal.bool true, attr := plainAttr }
    presenceFactory rfl).1 rfl

/-- Claim C10: validator instantiation merges `attribute` and
`messageResolver` into an object-typed declared rule value in place —
the post-call declaration is the very configuration object of the
constructed instance, it now contains both extra keys, and (when the
declaration did not already carry them) it differs from the declared
object; a rule value that is not `typeof 'object'` leaves the
declaration unchanged, the configuration being a fresh wrapper object
built per call. -/
theorem lookupValidator_mutates_declaration (c : Container) (d : RuleDescriptor)
    (f : ValidatorFactory) (h : lookupValidtorFactory c d.type = some f) :
    (jsTypeofIsObject d.value = false →
      ∃ inst, lookupValidator c d = Except.ok (inst, d.value)) ∧
    (∀ fs, d.value = JSVal.obj fs →
      ∃ inst, lookupValidator c d = Except.ok (inst, JSVal.obj inst.config) ∧
        lookupField inst.config "attribute" = some (JSVal.attrRef d.attr.name) ∧
        lookupField inst.config "messageResolver" =
          some (JSVal.resolverRef (lookupMessageResolver c)) ∧
        (fs.any (fun p => p.1 = "attribute") = false →
          fs.any (fun p => p.1 = "messageResolver") = false →
          JSVal.obj inst.config ≠ JSVal.obj fs)) := by
  constructor
  · intro h0
    exact ⟨_, lookupValidator_scalar_eq c d f h h0⟩
  · intro fs hv
    refine ⟨f.create d.type (emberMerge fs (standardProps d.attr.name (lookupMessageResolver c))),
      lookupValidator_obj_eq c d f h fs hv,
      lookupField_merge_attribute fs d.attr.name (lookupMessageResolver c),
      lookupField_merge_messageResolver fs d.attr.name (lookupMessageResolver c), ?_⟩
    intro h₁ h₂ heq
    have hfields : emberMerge fs (standardProps d.attr.name (lookupMessageResolver c)) = fs := by
      injection heq
    rw [emberMerge_standardProps_absent fs d.attr.name (lookupMessageResolver c) h₁ h₂] at hfields
    have hlen := congrArg List.length hfields
    simp at hlen

/-! Stability of the configuration merge: re-merging the standard
properties into an already-merged configuration is a no-op, which is
what makes a second validation pass over mutated declarations behave
like the first. -/

theorem setProp_all_values (fs : List (String × JSVal)) (k : String) (v : JSVal) :
    ∀ p ∈ setProp fs k v, p.1 = k → p.2 = v := by
  intro p hp hpk
  unfold setProp at hp
  by_cases h : fs.any (fun q => q.1 = k) = true
  · rw [if_pos h] at hp
    obtain ⟨q, hq, hqe⟩ := List.mem_map.mp hp
    by_cases hqk : q.1 = k
    · rw [if_pos hqk] at hqe
      rw [← hqe]
    · rw [if_neg hqk] at hqe
      subst hqe
      exact absurd hpk hqk
  · rw [if_neg h] at hp
    rcases List.mem_append.mp hp with hmem | hmem
    · exact absurd (List.any_eq_true.mpr ⟨p, hmem, by simp [hpk]⟩) h
    · simp at hmem
      subst hmem
      rfl

theorem setProp_any_self (fs : List (String × JSVal)) (k : String) (v : JSVal) :
    (setProp fs k v).any (fun p => p.1 = k) = true := by
  unfold setProp
  by_cases h : fs.any (fun q => q.1 = k) = true
  · rw [if_pos h]
    obtain ⟨q, hq, hqk⟩ := List.any_eq_true.mp h
    apply List.any_eq_true.mpr
    refine ⟨if q.1 = k then (k, v) else q, List.mem_map.mpr ⟨q, hq, rfl⟩, ?_⟩
    simp at hqk
    simp [hqk]
  · rw [if_neg h]
    exact List.any_eq_true.mpr ⟨(k, v), by simp, by simp⟩

theorem any_map_set_other (fs : List (String × JSVal)) (k : String) (v : JSVal)
    (k' : String) (h : k' ≠ k) :
    (fs.map (fun p => if p.1 = k then (k, v) else p)).any (fun p => p.1 = k') =
      fs.any (fun p => p.1 = k') := by
  induction fs with
  | nil => rfl
  | cons q rest ih =>
    obtain ⟨k₀, v₀⟩ := q
    by_cases hq : k₀ = k
    · subst hq
      simp [List.any_cons, ih, Ne.symm h]
    · simp [List.any_cons, hq, ih]

theorem setProp_any_other (fs : List (String × JSVal)) (k : String) (v : JSVal)
    (k' : String) (h : k' ≠ k) :
    (setProp fs k v).any (fun p => p.1 = k') = fs.any (fun p => p.1 = k') := by
  unfold setProp
  by_cases ha : fs.any (fun q => q.1 = k) = true
  · rw [if_pos ha, any_map_set_other fs k v k' h]
  · rw [if_neg ha, List.any_append]
    simp [Ne.symm h]

theorem setProp_all_values_other (fs : List (String × JSVal)) (k : String) (v : JSVal)
    (k' : String) (h : k' ≠ k) (w : JSVal)
    (hall : ∀ p ∈ fs, p.1 = k' → p.2 = w) :
    ∀ p ∈ setProp fs k v, p.1 = k' → p.2 = w := by
  intro p hp hpk
  unfold setProp at hp
  by_cases ha : fs.any (fun q => q.1 = k) = true
  · rw [if_pos ha] at hp
    obtain ⟨q, hq, hqe⟩ := List.mem_map.mp hp
    by_cases hqk : q.1 = k
    · rw [if_pos hqk] at hqe
      rw [← hqe] at hpk
      exact absurd hpk (Ne.symm h)
    · rw [if_neg hqk] at hqe
      subst hqe
      exact hall q hq hpk
  · rw [if_neg ha] at hp
    rcases List.mem_append.mp hp with hmem | hmem
    · exact hall p hmem hpk
    · simp at hmem
      subst hmem
      exact absurd hpk (Ne.symm h)

theorem map_set_id (k : String) (v : JSVal) :
    ∀ (l : List (String × JSVal)), (∀ p ∈ l, p.1 = k → p.2 = v) →
      l.map (fun p => if p.1 = k then (k, v) else p) = l := by
  intro l hl
  induction l with
  | nil => rfl
  | cons q rest ih =>
    obtain ⟨k₀, v₀⟩ := q
    by_cases hq : k₀ = k
    · subst hq
      have hv₀ : v₀ = v := hl (k₀, v₀) (by simp) rfl
      subst hv₀
      rw [List.map_cons, ih (fun p hp hpk => hl p (by simp [hp]) hpk)]
      simp
    · simp only [List.map_cons, if_neg hq]
      rw [ih (fun p hp hpk => hl p (by simp [hp]) hpk)]

theorem setProp_stable (fs : List (String × JSVal)) (k : String) (v : JSVal)
    (hany : fs.any (fun p => p.1 = k) = true)
    (hall : ∀ p ∈ fs, p.1 = k → p.2 = v) :
    setProp fs k v = fs := by
  unfold setProp
  rw [if_pos hany, map_set_id k v fs hall]

theorem emberMerge_standardProps_stable (fs : List (String × JSVal)) (an : String)
    (r : Option (String → JSVal)) :
    emberMerge (emberMerge fs (standardProps an r)) (standardProps an r) =
      emberMerge fs (standardProps an r) := by
  rw [emberMerge_standardProps, emberMerge_standardProps]
  have anyAY : (setProp (setProp fs "attribute" (JSVal.attrRef an))
      "messageResolver" (JSVal.resolverRef r)).any (fun p => p.1 = "attribute") = true := by
    rw [setProp_any_other _ _ _ _ (by decide)]
    exact setProp_any_self fs _ _
  have allAY : ∀ p ∈ setProp (setProp fs "attribute" (JSVal.attrRef an))
      "messageResolver" (JSVal.resolverRef r), p.1 = "attribute" → p.2 = JSVal.attrRef an :=
    setProp_all_values_other _ _ _ _ (by decide) _ (setProp_all_values fs _ _)
  rw [setProp_stable _ _ _ anyAY allAY]
  exact setProp_stable _ _ _ (setProp_any_self _ _ _) (setProp_all_values _ _ _)

/-- `lookupValidator_scalar_eq` restated on an unbundled descriptor,
so that rewriting produces terms without descriptor projections. -/
theorem lookupValidator_mk_scalar (c : Container) (k : String) (v : JSVal) (a : Attribute)
    (f : ValidatorFactory) (hf : lookupValidtorFactory c k = some f)
    (h0 : jsTypeofIsObject v = false) :
    lookupValidator c ⟨k, v, a⟩ = Except.ok
      (f.create k (emberMerge [(k, v)] (standardProps a.name (lookupMessageResolver c))), v) :=
  lookupValidator_scalar_eq c ⟨k, v, a⟩ f hf h0

/-- `lookupValidator_obj_eq` restated on an unbundled descriptor. -/
theorem lookupValidator_mk_obj (c : Container) (k : String) (fs : List (String × JSVal))
    (a : Attribute) (f : ValidatorFactory) (hf : lookupValidtorFactory c k = some f) :
    lookupValidator c ⟨k, JSVal.obj fs, a⟩ = Except.ok
      (f.create k (emberMerge fs (standardProps a.name (lookupMessageResolver c))),
       JSVal.obj (emberMerge fs (standardProps a.name (lookupMessageResolver c)))) :=
  lookupValidator_obj_eq c ⟨k, JSVal.obj fs, a⟩ f hf fs rfl

/-- Inversion of a successful `lookupValidator` call: the factory
resolved, and the rule value was either a non-object (configuration is
a fresh wrapper, declaration unchanged) or a plain object
(configuration is the in-place merged object, which is also the
post-call declaration). -/
theorem lookupValidator_ok_inversion (c : Container) (d : RuleDescriptor)
    (inst : ValidatorInstance) (v' : JSVal)
    (h : lookupValidator c d = Except.ok (inst, v')) :
    ∃ f, lookupValidtorFactory c d.type = some f ∧
      ((jsTypeofIsObject d.value = false ∧ v' = d.value ∧
        inst = f.create d.type (emberMerge [(d.type, d.value)]
          (standardProps d.attr.name (lookupMessageResolver c)))) ∨
       (∃ fs, d.value = JSVal.obj fs ∧
        v' = JSVal.obj (emberMerge fs (standardProps d.attr.name (lookupMessageResolver c))) ∧
        inst = f.create d.type (emberMerge fs
          (standardProps d.attr.name (lookupMessageResolver c))))) := by
  cases hf : lookupValidtorFactory c d.type with
  | none =>
    exfalso
    simp [lookupValidator, hf] at h
  | some f =>
    refine ⟨f, rfl, ?_⟩
    cases hdv : d.value with
    | obj fs =>
      right
      have heq := lookupValidator_obj_eq c d f hf fs hdv
      rw [heq] at h
      have h' := Except.ok.inj h
      exact ⟨fs, rfl, (congrArg Prod.snd h').symm, (congrArg Prod.fst h').symm⟩
    | undef =>
      left
      have heq := lookupValidator_scalar_eq c d f hf (by rw [hdv]; rfl)
      rw [heq] at h
      have h' := Except.ok.inj h
      rw [hdv] at h'
      exact ⟨rfl, (congrArg Prod.snd h').symm, (congrArg Prod.fst h').symm⟩
    | bool b =>
      left
      have heq := lookupValidator_scalar_eq c d f hf (by rw [hdv]; rfl)
      rw [heq] at h
      have h' := Except.ok.inj h
      rw [hdv] at h'
      exact ⟨rfl, (congrArg Prod.snd h').symm, (congrArg Prod.fst h').symm⟩
    | num n =>
      left
      have heq := lookupValidator_scalar_eq c d f hf (by rw [hdv]; rfl)
      rw [heq] at h
      have h' := Except.ok.inj h
      rw [hdv] at h'
      exact ⟨rfl, (congrArg Prod.snd h').symm, (congrArg Prod.fst h').symm⟩
    | str s =>
      left
      have heq := lookupValidator_scalar_eq c d f hf (by rw [hdv]; rfl)
      rw [heq] at h
      have h' := Except.ok.inj h
      rw [hdv] at h'
      exact ⟨rfl, (congrArg Prod.snd h').symm, (congrArg Prod.fst h').symm⟩
    | nul =>
      exfalso
      simp [lookupValidator, hf, hdv, jsTypeofIsObject] at h
    | arr xs =>
      exfalso
      simp [lookupValidator, hf, hdv, jsTypeofIsObject] at h
    | attrRef a =>
      exfalso
      simp [lookupValidator, hf, hdv, jsTypeofIsObject] at h
    | resolverRef r =>
      exfalso
      simp [lookupValidator, hf, hdv, jsTypeofIsObject] at h

/-- Re-running `lookupValidator` on the post-call rule value (as a
second validation pass does after the in-place merge) resolves the same
instance and leaves the declaration unchanged, for any descriptor
carrying an attribute of the same name. -/
theorem lookupValidator_stable (c : Container) (d : RuleDescriptor)
    (inst : ValidatorInstance) (v' : JSVal) (a₂ : Attribute)
    (hname : a₂.name = d.attr.name)
    (h : lookupValidator c d = Except.ok (inst, v')) :
    lookupValidator c ⟨d.type, v', a₂⟩ = Except.ok (inst, v') := by
  obtain ⟨f, hf, hcase⟩ := lookupValidator_ok_inversion c d inst v' h
  rcases hcase with ⟨ht, hv, hi⟩ | ⟨fs, hdv, hv, hi⟩
  · subst hv
    subst hi
    rw [lookupValidator_mk_scalar c d.type d.value a₂ f hf ht, hname]
  · subst hv
    subst hi
    rw [lookupValidator_mk_obj c d.type
      (emberMerge fs (standardProps d.attr.name (lookupMessageResolver c))) a₂ f hf,
      hname, emberMerge_standardProps_stable]

/-- A successful `lookupValidator` call leaves a numeric rule value
numeric (it is returned untouched) and never turns a non-numeric one
numeric (an object value stays an object). -/
theorem lookupValidator_num_iff (c : Container) (d : RuleDescriptor)
    (inst : ValidatorInstance) (v' : JSVal)
    (h : lookupValidator c d = Except.ok (inst, v')) (n : Int) :
    v' = JSVal.num n ↔ d.value = JSVal.num n := by
  obtain ⟨f, hf, hcase⟩ := lookupValidator_ok_inversion c d inst v' h
  rcases hcase with ⟨ht, hv, hi⟩ | ⟨fs, hdv, hv, hi⟩
  · rw [hv]
  · rw [hv, hdv]
    constructor <;> intro hx <;> exact JSVal.noConfusion hx

/-- `lookupValidator` depends on the descriptor's attribute only
through its name. -/
theorem lookupValidator_name_congr (c : Container) (k : String) (v : JSVal)
    (a a₂ : Attribute) (hname : a₂.name = a.name) :
    lookupValidator c ⟨k, v, a₂⟩ = lookupValidator c ⟨k, v, a⟩ := by
  cases hf : lookupValidtorFactory c k with
  | none => simp [lookupValidator, hf]
  | some f =>
    by_cases ht : jsTypeofIsObject v = true
    · cases v with
      | obj fs =>
        rw [lookupValidator_mk_obj c k fs a₂ f hf, lookupValidator_mk_obj c k fs a f hf, hname]
      | nul => simp [lookupValidator, hf, jsTypeofIsObject]
      | arr xs => simp [lookupValidator, hf, jsTypeofIsObject]
      | attrRef n => simp [lookupValidator, hf, jsTypeofIsObject]
      | resolverRef r => simp [lookupValidator, hf, jsTypeofIsObject]
      | undef => simp [jsTypeofIsObject] at ht
      | bool b => simp [jsTypeofIsObject] at ht
      | num n => simp [jsTypeofIsObject] at ht
      | str s => simp [jsTypeofIsObject] at ht
    · have ht' : jsTypeofIsObject v = false := bool_eq_false_of_not_true ht
      rw [lookupValidator_mk_scalar c k v a₂ f hf ht',
        lookupValidator_mk_scalar c k v a f hf ht', hname]

theorem processRuleObj_name_congr (c : Container) (a a₂ : Attribute)
    (hname : a₂.name = a.name) (kvs : List (String × JSVal)) :
    processRuleObj c a₂ kvs = processRuleObj c a kvs := by
  induction kvs with
  | nil => rfl
  | cons kv rest ih =>
    obtain ⟨k, v⟩ := kv
    simp [processRuleObj, lookupValidator_name_congr c k v a a₂ hname, ih]

theorem processRuleObj_cons_inversion (c : Container) (a : Attribute) (k : String) (v : JSVal)
    (rest : List (String × JSVal)) (insts : List ValidatorInstance)
    (kvs' : List (String × JSVal))
    (h : processRuleObj c a ((k, v) :: rest) = Except.ok (insts, kvs')) :
    ∃ inst v' insts₀ rest',
      lookupValidator c ⟨k, v, a⟩ = Except.ok (inst, v') ∧
      processRuleObj c a rest = Except.ok (insts₀, rest') ∧
      insts = inst :: insts₀ ∧ kvs' = (k, v') :: rest' := by
  cases hlv : lookupValidator c ⟨k, v, a⟩ with
  | error e =>
    exfalso
    simp [processRuleObj, hlv, except_bind_error] at h
  | ok p =>
    obtain ⟨inst, v'⟩ := p
    cases hpr : processRuleObj c a rest with
    | error e =>
      exfalso
      simp [processRuleObj, hlv, hpr, except_bind_ok, except_bind_error] at h
    | ok q =>
      obtain ⟨insts₀, rest'⟩ := q
      have hok : processRuleObj c a ((k, v) :: rest) =
          Except.ok (inst :: insts₀, (k, v') :: rest') := by
        simp [processRuleObj, hlv, hpr, except_bind_ok]
      rw [hok] at h
      have hcomp := Except.ok.inj h
      exact ⟨inst, v', insts₀, rest', rfl, rfl,
        (congrArg Prod.fst hcomp).symm, (congrArg Prod.snd hcomp).symm⟩

theorem processRuleObj_nil_inversion (c : Container) (a : Attribute)
    (insts : List ValidatorInstance) (kvs' : List (String × JSVal))
    (h : processRuleObj c a [] = Except.ok (insts, kvs')) :
    insts = [] ∧ kvs' = [] := by
  have hcomp := Except.ok.inj h
  exact ⟨(congrArg Prod.fst hcomp).symm, (congrArg Prod.snd hcomp).symm⟩

/-- Re-running `processRuleObj` on the post-call rule values of one
rule object yields the same instances and the same values. -/
theorem processRuleObj_stable (c : Container) (a a₂ : Attribute) (hname : a₂.name = a.name) :
    ∀ (kvs : List (String × JSVal)) (insts : List ValidatorInstance)
      (kvs' : List (String × JSVal)),
      processRuleObj c a kvs = Except.ok (insts, kvs') →
      processRuleObj c a₂ kvs' = Except.ok (insts, kvs') := by
  intro kvs
  induction kvs with
  | nil =>
    intro insts kvs' h
    obtain ⟨h1, h2⟩ := processRuleObj_nil_inversion c a insts kvs' h
    subst h1
    subst h2
    rfl
  | cons kv rest ih =>
    intro insts kvs' h
    obtain ⟨k, v⟩ := kv
    obtain ⟨inst, v', insts₀, rest', hlv, hpr, hieq, hkeq⟩ :=
      processRuleObj_cons_inversion c a k v rest insts kvs' h
    subst hieq
    subst hkeq
    have s₁ : lookupValidator c ⟨k, v', a₂⟩ = Except.ok (inst, v') :=
      lookupValidator_stable c ⟨k, v, a⟩ inst v' a₂ hname hlv
    have s₂ := ih insts₀ rest' hpr
    simp [processRuleObj, s₁, s₂, except_bind_ok]

theorem numOf_congr (x y : JSVal)
    (hxy : ∀ n : Int, x = JSVal.num n ↔ y = JSVal.num n) :
    numOf x = numOf y := by
  by_cases hx : ∃ n, x = JSVal.num n
  · obtain ⟨n, hn⟩ := hx
    subst hn
    rw [(hxy n).mp rfl]
  · by_cases hy : ∃ n, y = JSVal.num n
    · obtain ⟨n, hn⟩ := hy
      exact absurd ((hxy n).mpr hn) (fun hc => hx ⟨n, hc⟩)
    · have hxn : numOf x = none := by
        cases x <;> first
          | rfl
          | exact absurd ⟨_, rfl⟩ hx
      have hyn : numOf y = none := by
        cases y <;> first
          | rfl
          | exact absurd ⟨_, rfl⟩ hy
      rw [hxn, hyn]

theorem numProp_cons_self (k : String) (v : JSVal) (rest : List (String × JSVal)) :
    numProp ((k, v) :: rest) k = numOf v := by
  unfold numProp
  rw [lookupField_cons, if_pos rfl]
  cases v <;> rfl

theorem numProp_cons_other (k : String) (v : JSVal) (rest : List (String × JSVal))
    (k₀ : String) (h : ¬(k = k₀)) :
    numProp ((k, v) :: rest) k₀ = numProp rest k₀ := by
  unfold numProp
  rw [lookupField_cons, if_neg h]

/-- `processRuleObj` never changes which properties of a rule object
are numeric, nor their numeric values (numbers pass through untouched,
objects stay objects). -/
theorem processRuleObj_numProp (c : Container) (a : Attribute) :
    ∀ (kvs : List (String × JSVal)) (insts : List ValidatorInstance)
      (kvs' : List (String × JSVal)),
      processRuleObj c a kvs = Except.ok (insts, kvs') →
      ∀ k₀, numProp kvs' k₀ = numProp kvs k₀ := by
  intro kvs
  induction kvs with
  | nil =>
    intro insts kvs' h k₀
    obtain ⟨h1, h2⟩ := processRuleObj_nil_inversion c a insts kvs' h
    subst h2
    rfl
  | cons kv rest ih =>
    intro insts kvs' h k₀
    obtain ⟨k, v⟩ := kv
    obtain ⟨inst, v', insts₀, rest', hlv, hpr, hieq, hkeq⟩ :=
      processRuleObj_cons_inversion c a k v rest insts kvs' h
    subst hkeq
    by_cases hk : k = k₀
    · subst hk
      rw [numProp_cons_self, numProp_cons_self]
      exact numOf_congr v' v (lookupValidator_num_iff c ⟨k, v, a⟩ inst v' hlv)
    · rw [numProp_cons_other k v' rest' k₀ hk, numProp_cons_other k v rest k₀ hk]
      exact ih insts₀ rest' hpr k₀

theorem jsIsEmpty_obj (fs : List (String × JSVal)) :
    jsIsEmpty (JSVal.obj fs) = emptyByNumProp fs := rfl

theorem jsIsEmpty_obj_congr (fs fs' : List (String × JSVal))
    (h : ∀ k, numProp fs' k = numProp fs k) :
    jsIsEmpty (JSVal.obj fs') = jsIsEmpty (JSVal.obj fs) := by
  rw [jsIsEmpty_obj, jsIsEmpty_obj]
  unfold emptyByNumProp
  rw [h "size", h "length"]

theorem processRuleObjs_cons_inversion (c : Container) (a : Attribute) (r : JSVal)
    (rest : List JSVal) (insts : List ValidatorInstance) (rs' : List JSVal)
    (h : processRuleObjs c a (r :: rest) = Except.ok (insts, rs')) :
    ∃ kvs insts₁ kvs' insts₂ rest',
      jsOwnKeysVals r = some kvs ∧
      processRuleObj c a kvs = Except.ok (insts₁, kvs') ∧
      processRuleObjs c a rest = Except.ok (insts₂, rest') ∧
      insts = insts₁ ++ insts₂ ∧
      rs' = rebuildRule r kvs' :: rest' := by
  cases hkv : jsOwnKeysVals r with
  | none =>
    exfalso
    simp [processRuleObjs, hkv] at h
  | some kvs =>
    cases hpo : processRuleObj c a kvs with
    | error e =>
      exfalso
      simp [processRuleObjs, hkv, hpo, except_bind_error] at h
    | ok p =>
      obtain ⟨insts₁, kvs'⟩ := p
      cases hps : processRuleObjs c a rest with
      | error e =>
        exfalso
        simp [processRuleObjs, hkv, hpo, hps, except_bind_ok, except_bind_error] at h
      | ok q =>
        obtain ⟨insts₂, rest'⟩ := q
        have hok : processRuleObjs c a (r :: rest) =
            Except.ok (insts₁ ++ insts₂, rebuildRule r kvs' :: rest') := by
          simp [processRuleObjs, hkv, hpo, hps, except_bind_ok]
        rw [hok] at h
        have hcomp := Except.ok.inj h
        exact ⟨kvs, insts₁, kvs', insts₂, rest', rfl, hpo, rfl,
          (congrArg Prod.fst hcomp).symm, (congrArg Prod.snd hcomp).symm⟩

theorem processRuleObjs_nil_inversion (c : Container) (a : Attribute)
    (insts : List ValidatorInstance) (rs' : List JSVal)
    (h : processRuleObjs c a [] = Except.ok (insts, rs')) :
    insts = [] ∧ rs' = [] := by
  have hcomp := Except.ok.inj h
  exact ⟨(congrArg Prod.fst hcomp).symm, (congrArg Prod.snd hcomp).symm⟩

theorem processRuleObjs_length (c : Container) (a : Attribute) :
    ∀ (rs : List JSVal) (insts : List ValidatorInstance) (rs' : List JSVal),
      processRuleObjs c a rs = Except.ok (insts, rs') → rs'.length = rs.length := by
  intro rs
  induction rs with
  | nil =>
    intro insts rs' h
    obtain ⟨h1, h2⟩ := processRuleObjs_nil_inversion c a insts rs' h
    subst h2
    rfl
  | cons r rest ih =>
    intro insts rs' h
    obtain ⟨kvs, insts₁, kvs', insts₂, rest', hkv, hpo, hps, hieq, hreq⟩ :=
      processRuleObjs_cons_inversion c a r rest insts rs' h
    subst hreq
    simp [ih insts₂ rest' hps]

/-- Re-running `processRuleObjs` on the post-call rule list yields the
same instances and leaves the list unchanged, for an attribute of the
same name.  (A rule list entry that is not a plain object is returned
unchanged by the model, and reprocessing its unchanged rule values
reconstructs the same instances because the merge is stable.) -/
theorem processRuleObjs_stable (c : Container) (a a₂ : Attribute) (hname : a₂.name = a.name) :
    ∀ (rs : List JSVal) (insts : List ValidatorInstance) (rs' : List JSVal),
      processRuleObjs c a rs = Except.ok (insts, rs') →
      processRuleObjs c a₂ rs' = Except.ok (insts, rs') := by
  intro rs
  induction rs with
  | nil =>
    intro insts rs' h
    obtain ⟨h1, h2⟩ := processRuleObjs_nil_inversion c a insts rs' h
    subst h1
    subst h2
    rfl
  | cons r rest ih =>
    intro insts rs' h
    obtain ⟨kvs, insts₁, kvs', insts₂, rest', hkv, hpo, hps, hieq, hreq⟩ :=
      processRuleObjs_cons_inversion c a r rest insts rs' h
    subst hieq
    subst hreq
    have s₂ := ih insts₂ rest' hps
    cases r with
    | obj fs =>
      have hfs : fs = kvs := by simpa [jsOwnKeysVals] using hkv
      subst hfs
      have s₁ := processRuleObj_stable c a a₂ hname fs insts₁ kvs' hpo
      simp [processRuleObjs, rebuildRule, jsOwnKeysVals, s₁, s₂, except_bind_ok]
    | bool b =>
      have s₁ : processRuleObj c a₂ kvs = Except.ok (insts₁, kvs') := by
        rw [processRuleObj_name_congr c a a₂ hname kvs]
        exact hpo
      simp [processRuleObjs, rebuildRule, hkv, s₁, s₂, except_bind_ok]
    | num n =>
      have s₁ : processRuleObj c a₂ kvs = Except.ok (insts₁, kvs') := by
        rw [processRuleObj_name_congr c a a₂ hname kvs]
        exact hpo
      simp [processRuleObjs, rebuildRule, hkv, s₁, s₂, except_bind_ok]
    | str s =>
      have s₁ : processRuleObj c a₂ kvs = Except.ok (insts₁, kvs') := by
        rw [processRuleObj_name_congr c a a₂ hname kvs]
        exact hpo
      simp [processRuleObjs, rebuildRule, hkv, s₁, s₂, except_bind_ok]
    | arr xs =>
      have s₁ : processRuleObj c a₂ kvs = Except.ok (insts₁, kvs') := by
        rw [processRuleObj_name_congr c a a₂ hname kvs]
        exact hpo
      simp [processRuleObjs, rebuildRule, hkv, s₁, s₂, except_bind_ok]
    | attrRef nm =>
      have s₁ : processRuleObj c a₂ kvs = Except.ok (insts₁, kvs') := by
        rw [processRuleObj_name_congr c a a₂ hname kvs]
        exact hpo
      simp [processRuleObjs, rebuildRule, hkv, s₁, s₂, except_bind_ok]
    | resolverRef rr =>
      have s₁ : processRuleObj c a₂ kvs = Except.ok (insts₁, kvs') := by
        rw [processRuleObj_name_congr c a a₂ hname kvs]
        exact hpo
      simp [processRuleObjs, rebuildRule, hkv, s₁, s₂, except_bind_ok]
    | undef => simp [jsOwnKeysVals] at hkv
    | nul => simp [jsOwnKeysVals] at hkv

theorem except_map_ok {ε α β : Type} (f : α → β) (a : α) :
    (Except.ok a : Except ε α).map f = Except.ok (f a) := rfl

theorem except_map_error {ε α β : Type} (f : α → β) (e : ε) :
    (Except.error e : Except ε α).map f = Except.error e := rfl

/-- Re-running `validatorsFor` on an attribute whose validation
metadata is the post-call metadata of a successful first run resolves
the same instances and leaves the metadata unchanged: the in-place
merge of the first pass is stable. -/
theorem validatorsFor_stable (c : Container) (attr : Attribute)
    (insts : List ValidatorInstance) (meta' : JSVal)
    (h : validatorsFor c attr = Except.ok (insts, meta'))
    (pk : Option String) :
    validatorsFor c ⟨attr.name, meta', pk⟩ = Except.ok (insts, meta') := by
  by_cases he : jsIsEmpty attr.validation = true
  · have hok : validatorsFor c attr = Except.ok ([], attr.validation) := by
      simp [validatorsFor, he]
    rw [hok] at h
    have hcomp := Except.ok.inj h
    have hi := congrArg Prod.fst hcomp
    have hm := congrArg Prod.snd hcomp
    subst hi
    subst hm
    simp [validatorsFor, he]
  · have he' : jsIsEmpty attr.validation = false := bool_eq_false_of_not_true he
    cases hval : attr.validation with
    | undef =>
      rw [hval] at he'
      simp [jsIsEmpty] at he'
    | nul =>
      rw [hval] at he'
      simp [jsIsEmpty] at he'
    | arr vs =>
      rw [hval] at he'
      cases hps : processRuleObjs c attr vs with
      | error e =>
        exfalso
        have hbad : validatorsFor c attr = Except.error e := by
          simp [validatorsFor, hval, he', hps, except_map_error]
        rw [hbad] at h
        exact Except.noConfusion h
      | ok q =>
        obtain ⟨insts₀, vs'⟩ := q
        have hok : validatorsFor c attr = Except.ok (insts₀, JSVal.arr vs') := by
          simp [validatorsFor, hval, he', hps, except_map_ok]
        rw [hok] at h
        have hcomp := Except.ok.inj h
        have hi := congrArg Prod.fst hcomp
        have hm := congrArg Prod.snd hcomp
        subst hi
        subst hm
        have hlen := processRuleObjs_length c attr vs insts₀ vs' hps
        have hvs' : jsIsEmpty (JSVal.arr vs') = false := by
          cases vs' with
          | nil =>
            have hnil : vs = [] := List.length_eq_zero.mp hlen.symm
            rw [hnil] at he'
            simp [jsIsEmpty] at he'
          | cons x xs => simp [jsIsEmpty]
        have s := processRuleObjs_stable c attr ⟨attr.name, JSVal.arr vs', pk⟩ rfl
          vs insts₀ vs' hps
        simp [validatorsFor, hvs', s, except_map_ok]
    | obj fs =>
      rw [hval] at he'
      cases hps : processRuleObjs c attr [JSVal.obj fs] with
      | error e =>
        exfalso
        have hbad : validatorsFor c attr = Except.error e := by
          simp [validatorsFor, hval, he', hps, except_map_error]
        rw [hbad] at h
        exact Except.noConfusion h
      | ok q =>
        obtain ⟨insts₀, rs'⟩ := q
        obtain ⟨kvs, insts₁, kvs', insts₂, rest', hkv, hpo, hps₂, hieq, hreq⟩ :=
          processRuleObjs_cons_inversion c attr (JSVal.obj fs) [] insts₀ rs' hps
        obtain ⟨hi₂, hr₂⟩ := processRuleObjs_nil_inversion c attr insts₂ rest' hps₂
        subst hi₂
        subst hr₂
        have hfs : fs = kvs := by simpa [jsOwnKeysVals] using hkv
        subst hfs
        simp [rebuildRule] at hreq
        subst hreq
        have hok : validatorsFor c attr = Except.ok (insts₀, JSVal.obj kvs') := by
          simp [validatorsFor, hval, he', hps, except_map_ok, List.headD]
        rw [hok] at h
        have hcomp := Except.ok.inj h
        have hi := congrArg Prod.fst hcomp
        have hm := congrArg Prod.snd hcomp
        subst hi
        subst hm
        have hnum := processRuleObj_numProp c attr fs insts₁ kvs' hpo
        have he₂ : jsIsEmpty (JSVal.obj kvs') = false := by
          rw [jsIsEmpty_obj_congr fs kvs' hnum]
          exact he'
        have s := processRuleObjs_stable c attr ⟨attr.name, JSVal.obj kvs', pk⟩ rfl
          [JSVal.obj fs] insts₀ [JSVal.obj kvs'] hps
        simp [validatorsFor, he₂, s, except_map_ok, List.headD]
    | bool b =>
      rw [hval] at he'
      cases hps : processRuleObjs c attr [(JSVal.bool b)] with
      | error e =>
        exfalso
        have hbad : validatorsFor c attr = Except.error e := by
          simp [validatorsFor, hval, he', hps, except_map_error]
        rw [hbad] at h
        exact Except.noConfusion h
      | ok q =>
        obtain ⟨insts₀, rs'⟩ := q
        obtain ⟨kvs, insts₁, kvs', insts₂, rest', hkv, hpo, hps₂, hieq, hreq⟩ :=
          processRuleObjs_cons_inversion c attr (JSVal.bool b) [] insts₀ rs' hps
        obtain ⟨hi₂, hr₂⟩ := processRuleObjs_nil_inversion c attr insts₂ rest' hps₂
        subst hi₂
        subst hr₂
        simp [rebuildRule] at hreq
        subst hreq
        have hok : validatorsFor c attr = Except.ok (insts₀, JSVal.bool b) := by
          simp [validatorsFor, hval, he', hps, except_map_ok, List.headD]
        rw [hok] at h
        have hcomp := Except.ok.inj h
        have hi := congrArg Prod.fst hcomp
        have hm := congrArg Prod.snd hcomp
        subst hi
        subst hm
        have s := processRuleObjs_stable c attr ⟨attr.name, JSVal.bool b, pk⟩ rfl
          [(JSVal.bool b)] insts₀ [(JSVal.bool b)] hps
        simp [validatorsFor, he', s, except_map_ok, List.headD]
    | num n =>
      rw [hval] at he'
      cases hps : processRuleObjs c attr [(JSVal.num n)] with
      | error e =>
        exfalso
        have hbad : validatorsFor c attr = Except.error e := by
          simp [validatorsFor, hval, he', hps, except_map_error]
        rw [hbad] at h
        exact Except.noConfusion h
      | ok q =>
        obtain ⟨insts₀, rs'⟩ := q
        obtain ⟨kvs, insts₁, kvs', insts₂, rest', hkv, hpo, hps₂, hieq, hreq⟩ :=
          processRuleObjs_cons_inversion c attr (JSVal.num n) [] insts₀ rs' hps
        obtain ⟨hi₂, hr₂⟩ := processRuleObjs_nil_inversion c attr insts₂ rest' hps₂
        subst hi₂
        subst hr₂
        simp [rebuildRule] at hreq
        subst hreq
        have hok : validatorsFor c attr = Except.ok (insts₀, JSVal.num n) := by
          simp [validatorsFor, hval, he', hps, except_map_ok, List.headD]
        rw [hok] at h
        have hcomp := Except.ok.inj h
        have hi := congrArg Prod.fst hcomp
        have hm := congrArg Prod.snd hcomp
        subst hi
        subst hm
        have s := processRuleObjs_stable c attr ⟨attr.name, JSVal.num n, pk⟩ rfl
          [(JSVal.num n)] insts₀ [(JSVal.num n)] hps
        simp [validatorsFor, he', s, except_map_ok, List.headD]
    | str s =>
      rw [hval] at he'
      cases hps : processRuleObjs c attr [(JSVal.str s)] with
      | error e =>
        exfalso
        have hbad : validatorsFor c attr = Except.error e := by
          simp [validatorsFor, hval, he', hps, except_map_error]
        rw [hbad] at h
        exact Except.noConfusion h
      | ok q =>
        obtain ⟨insts₀, rs'⟩ := q
        obtain ⟨kvs, insts₁, kvs', insts₂, rest', hkv, hpo, hps₂, hieq, hreq⟩ :=
          processRuleObjs_cons_inversion c attr (JSVal.str s) [] insts₀ rs' hps
        obtain ⟨hi₂, hr₂⟩ := processRuleObjs_nil_inversion c attr insts₂ rest' hps₂
        subst hi₂
        subst hr₂
        simp [rebuildRule] at hreq
        subst hreq
        have hok : validatorsFor c attr = Except.ok (insts₀, JSVal.str s) := by
          simp [validatorsFor, hval, he', hps, except_map_ok, List.headD]
        rw [hok] at h
        have hcomp := Except.ok.inj h
        have hi := congrArg Prod.fst hcomp
        have hm := congrArg Prod.snd hcomp
        subst hi
        subst hm
        have s := processRuleObjs_stable c attr ⟨attr.name, JSVal.str s, pk⟩ rfl
          [(JSVal.str s)] insts₀ [(JSVal.str s)] hps
        simp [validatorsFor, he', s, except_map_ok, List.headD]
    | attrRef nm =>
      rw [hval] at he'
      cases hps : processRuleObjs c attr [(JSVal.attrRef nm)] with
      | error e =>
        exfalso
        have hbad : validatorsFor c attr = Except.error e := by
          simp [validatorsFor, hval, he', hps, except_map_error]
        rw [hbad] at h
        exact Except.noConfusion h
      | ok q =>
        obtain ⟨insts₀, rs'⟩ := q
        obtain ⟨kvs, insts₁, kvs', insts₂, rest', hkv, hpo, hps₂, hieq, hreq⟩ :=
          processRuleObjs_cons_inversion c attr (JSVal.attrRef nm) [] insts₀ rs' hps
        obtain ⟨hi₂, hr₂⟩ := processRuleObjs_nil_inversion c attr insts₂ rest' hps₂
        subst hi₂
        subst hr₂
        simp [rebuildRule] at hreq
        subst hreq
        have hok : validatorsFor c attr = Except.ok (insts₀, JSVal.attrRef nm) := by
          simp [validatorsFor, hval, he', hps, except_map_ok, List.headD]
        rw [hok] at h
        have hcomp := Except.ok.inj h
        have hi := congrArg Prod.fst hcomp
        have hm := congrArg Prod.snd hcomp
        subst hi
        subst hm
        have s := processRuleObjs_stable c attr ⟨attr.name, JSVal.attrRef nm, pk⟩ rfl
          [(JSVal.attrRef nm)] insts₀ [(JSVal.attrRef nm)] hps
        simp [validatorsFor, he', s, except_map_ok, List.headD]
    | resolverRef rr =>
      rw [hval] at he'
      cases hps : processRuleObjs c attr [(JSVal.resolverRef rr)] with
      | error e =>
        exfalso
        have hbad : validatorsFor c attr = Except.error e := by
          simp [validatorsFor, hval, he', hps, except_map_error]
        rw [hbad] at h
        exact Except.noConfusion h
      | ok q =>
        obtain ⟨insts₀, rs'⟩ := q
        obtain ⟨kvs, insts₁, kvs', insts₂, rest', hkv, hpo, hps₂, hieq, hreq⟩ :=
          processRuleObjs_cons_inversion c attr (JSVal.resolverRef rr) [] insts₀ rs' hps
        obtain ⟨hi₂, hr₂⟩ := processRuleObjs_nil_inversion c attr insts₂ rest' hps₂
        subst hi₂
        subst hr₂
        simp [rebuildRule] at hreq
        subst hreq
        have hok : validatorsFor c attr = Except.ok (insts₀, JSVal.resolverRef rr) := by
          simp [validatorsFor, hval, he', hps, except_map_ok, List.headD]
        rw [hok] at h
        have hcomp := Except.ok.inj h
        have hi := congrArg Prod.fst hcomp
        have hm := congrArg Prod.snd hcomp
        subst hi
        subst hm
        have s := processRuleObjs_stable c attr ⟨attr.name, JSVal.resolverRef rr, pk⟩ rfl
          [(JSVal.resolverRef rr)] insts₀ [(JSVal.resolverRef rr)] hps
        simp [validatorsFor, he', s, except_map_ok, List.headD]

theorem getValue_congr (m m₂ : Model) (h : m₂.values = m.values) (n : String) :
    getValue m₂ n = getValue m n := by
  unfold getValue
  rw [h]

theorem list_eq_nil_of_isEmpty {α : Type} (l : List α) (h : l.isEmpty = true) : l = [] := by
  cases l with
  | nil => rfl
  | cons x xs => simp at h

theorem clearIfInvalid_of_valid (m : Model) (h : m.isValid = true) : clearIfInvalid m = m := by
  unfold clearIfInvalid
  rw [if_pos h]

/-- One run of `_validateAttribute` appends a fixed batch of messages
`Δ` to the error collection, and re-running it on the post-call
attribute — from any record with the same field values and model name,
and any starting error collection — appends the same `Δ` and returns
the attribute unchanged. -/
theorem _validateAttribute_spec (c : Container) (m : Model) (errs : Errors) (attr : Attribute)
    (errs' : Errors) (attr' : Attribute)
    (h : _validateAttribute c m errs attr = Except.ok (errs', attr')) :
    ∃ Δ, errs' = errs ++ Δ ∧
      ∀ (m₂ : Model) (errs₂ : Errors), m₂.values = m.values → m₂.modelName = m.modelName →
        _validateAttribute c m₂ errs₂ attr' = Except.ok (errs₂ ++ Δ, attr') := by
  cases hvf : validatorsFor c attr with
  | error e =>
    exfalso
    simp [_validateAttribute, hvf, except_bind_error] at h
  | ok p =>
    obtain ⟨insts, meta'⟩ := p
    have hmain : _validateAttribute c m errs attr = Except.ok
        (errs ++ ((insts.map (fun i => i.validate (attrName attr)
          (getValue m (attrName attr)))).filterMap strOf).map (fun s => (attrName attr, s)),
         ⟨attr.name, meta', some m.modelName⟩) := by
      have hfold : insts.foldl (fun e i => _addError e (attrName attr)
            (i.validate (attrName attr) (getValue m (attrName attr)))) errs =
          errs ++ ((insts.map (fun i => i.validate (attrName attr)
            (getValue m (attrName attr)))).filterMap strOf).map
              (fun s => (attrName attr, s)) := by
        rw [← foldl_addError_eq, List.foldl_map]
      simp only [_validateAttribute, hvf, except_bind_ok]
      rw [hfold]
    rw [hmain] at h
    have hcomp := Except.ok.inj h
    have hE := congrArg Prod.fst hcomp
    have hA := congrArg Prod.snd hcomp
    subst hA
    refine ⟨((insts.map (fun i => i.validate (attrName attr)
      (getValue m (attrName attr)))).filterMap strOf).map (fun s => (attrName attr, s)),
      hE.symm, ?_⟩
    intro m₂ errs₂ hv hm
    have hvf₂ : validatorsFor c ⟨attr.name, meta', some m.modelName⟩ =
        Except.ok (insts, meta') :=
      validatorsFor_stable c attr insts meta' hvf (some m.modelName)
    have hmain₂ : _validateAttribute c m₂ errs₂ ⟨attr.name, meta', some m.modelName⟩ =
        Except.ok
          (errs₂ ++ ((insts.map (fun i => i.validate attr.name
            (getValue m₂ attr.name))).filterMap strOf).map (fun s => (attr.name, s)),
           ⟨attr.name, meta', some m₂.modelName⟩) := by
      have hfold₂ : insts.foldl (fun e i => _addError e attr.name
            (i.validate attr.name (getValue m₂ attr.name))) errs₂ =
          errs₂ ++ ((insts.map (fun i => i.validate attr.name
            (getValue m₂ attr.name))).filterMap strOf).map (fun s => (attr.name, s)) := by
        rw [← foldl_addError_eq, List.foldl_map]
      simp only [_validateAttribute, hvf₂, except_bind_ok, attrName]
      rw [hfold₂]
    rw [hmain₂, getValue_congr m m₂ hv attr.name, hm]
    rfl

/-- The `eachAttribute` loop appends a fixed batch `Δ` of messages, and
re-running it over the post-call attribute list — from any record with
the same values and model name, and any starting error collection —
appends the same `Δ` and leaves the attribute list unchanged. -/
theorem validateAttrs_spec (c : Container) (m : Model) :
    ∀ (attrs : List Attribute) (errs errs' : Errors) (attrs' : List Attribute),
      validateAttrs c m errs attrs = Except.ok (errs', attrs') →
      ∃ Δ, errs' = errs ++ Δ ∧
        ∀ (m₂ : Model) (errs₂ : Errors), m₂.values = m.values → m₂.modelName = m.modelName →
          validateAttrs c m₂ errs₂ attrs' = Except.ok (errs₂ ++ Δ, attrs') := by
  intro attrs
  induction attrs with
  | nil =>
    intro errs errs' attrs' h
    have hcomp := Except.ok.inj h
    have hE := congrArg Prod.fst hcomp
    have hA := congrArg Prod.snd hcomp
    subst hE
    subst hA
    exact ⟨[], by simp, fun m₂ errs₂ _ _ => by simp [validateAttrs]⟩
  | cons a rest ih =>
    intro errs errs' attrs' h
    cases hva : _validateAttribute c m errs a with
    | error e =>
      exfalso
      simp [validateAttrs, hva, except_bind_error] at h
    | ok p =>
      obtain ⟨e₁, a'⟩ := p
      cases hvr : validateAttrs c m e₁ rest with
      | error e =>
        exfalso
        simp [validateAttrs, hva, hvr, except_bind_ok, except_bind_error] at h
      | ok q =>
        obtain ⟨e₂, rest'⟩ := q
        have hok : validateAttrs c m errs (a :: rest) = Except.ok (e₂, a' :: rest') := by
          simp [validateAttrs, hva, hvr, except_bind_ok]
        rw [hok] at h
        have hcomp := Except.ok.inj h
        have hE := congrArg Prod.fst hcomp
        have hA := congrArg Prod.snd hcomp
        subst hE
        subst hA
        obtain ⟨Δ₁, hΔ₁, hstab₁⟩ := _validateAttribute_spec c m errs a e₁ a' hva
        obtain ⟨Δ₂, hΔ₂, hstab₂⟩ := ih e₁ e₂ rest' hvr
        refine ⟨Δ₁ ++ Δ₂, ?_, ?_⟩
        · rw [hΔ₂, hΔ₁, List.append_assoc]
        · intro m₂ errs₂ hv hm
          have s₁ := hstab₁ m₂ errs₂ hv hm
          have s₂ := hstab₂ m₂ (errs₂ ++ Δ₁) hv hm
          have hok₂ : validateAttrs c m₂ errs₂ (a' :: rest') =
              Except.ok ((errs₂ ++ Δ₁) ++ Δ₂, a' :: rest') := by
            simp [validateAttrs, s₁, s₂, except_bind_ok]
          rw [hok₂, List.append_assoc]

theorem runValidationPass_eq (c : Container) (m : Model) (e₁ e₂ : Errors)
    (attrs' rels' : List Attribute)
    (h₁ : validateAttrs c m m.errors m.attributes = Except.ok (e₁, attrs'))
    (h₂ : validateAttrs c m e₁ m.relationships = Except.ok (e₂, rels')) :
    runValidationPass c m = Except.ok (e₂.isEmpty,
      if e₂.isEmpty
      then { m with attributes := attrs', relationships := rels', errors := e₂ }
      else { m with attributes := attrs', relationships := rels', errors := e₂, isDirty := true, isValid := false }) := by
  cases hE : e₂.isEmpty
  · simp [runValidationPass, h₁, h₂, except_bind_ok, hE]
    intro hnil
    rw [hnil] at hE
    simp at hE
  · simp [runValidationPass, h₁, h₂, except_bind_ok, hE]
    intro hne
    exact absurd (list_eq_nil_of_isEmpty e₂ hE) hne

/-- One full validation pass appends a fixed batch `Δ` of messages to
the record's error collection; the returned boolean and validity flag
are determined by the emptiness of the resulting collection, the
bookkeeping fields are preserved, and re-running the pass on any record
carrying the post-call attribute and relationship lists (same values
and model name, any starting error collection) appends the same `Δ`. -/
theorem runValidationPass_restart (c : Container) (m : Model) (b : Bool) (m' : Model)
    (h : runValidationPass c m = Except.ok (b, m')) :
    ∃ Δ, m'.errors = m.errors ++ Δ ∧ b = (m.errors ++ Δ).isEmpty ∧
      m'.values = m.values ∧ m'.modelName = m.modelName ∧ m'.isDeleted = m.isDeleted ∧
      m'.isValid = (if (m.errors ++ Δ).isEmpty then m.isValid else false) ∧
      (∀ (m₂ : Model), m₂.values = m.values → m₂.modelName = m.modelName →
        m₂.attributes = m'.attributes → m₂.relationships = m'.relationships →
        ∃ m₃, runValidationPass c m₂ = Except.ok ((m₂.errors ++ Δ).isEmpty, m₃) ∧
          m₃.errors = m₂.errors ++ Δ) := by
  cases hva : validateAttrs c m m.errors m.attributes with
  | error e =>
    exfalso
    simp [runValidationPass, hva, except_bind_error] at h
  | ok p =>
    obtain ⟨e₁, attrs'⟩ := p
    cases hvr : validateAttrs c m e₁ m.relationships with
    | error e =>
      exfalso
      simp [runValidationPass, hva, hvr, except_bind_ok, except_bind_error] at h
    | ok q =>
      obtain ⟨e₂, rels'⟩ := q
      obtain ⟨Δ₁, hΔ₁, hstab₁⟩ := validateAttrs_spec c m m.attributes m.errors e₁ attrs' hva
      obtain ⟨Δ₂, hΔ₂, hstab₂⟩ := validateAttrs_spec c m m.relationships e₁ e₂ rels' hvr
      have he₂ : e₂ = m.errors ++ (Δ₁ ++ Δ₂) := by
        rw [hΔ₂, hΔ₁, List.append_assoc]
      have hok := runValidationPass_eq c m e₁ e₂ attrs' rels' hva hvr
      rw [hok] at h
      have hcomp := Except.ok.inj h
      have hb := congrArg Prod.fst hcomp
      have hm' := congrArg Prod.snd hcomp
      subst hb
      subst hm'
      refine ⟨Δ₁ ++ Δ₂, ?_, ?_, ?_, ?_, ?_, ?_, ?_⟩
      · cases hE : e₂.isEmpty <;> simp [hE, he₂]
      · rw [he₂]
      · cases hE : e₂.isEmpty <;> simp [hE]
      · cases hE : e₂.isEmpty <;> simp [hE]
      · cases hE : e₂.isEmpty <;> simp [hE]
      · rw [← he₂]
        cases hE : e₂.isEmpty <;> simp [hE]
      · intro m₂ hv hm ha hr
        have ha' : m₂.attributes = attrs' := by
          rw [ha]
          cases hE : e₂.isEmpty <;> simp [hE]
        have hr' : m₂.relationships = rels' := by
          rw [hr]
          cases hE : e₂.isEmpty <;> simp [hE]
        have s₁ : validateAttrs c m₂ m₂.errors m₂.attributes =
            Except.ok (m₂.errors ++ Δ₁, attrs') := by
          rw [ha']
          exact hstab₁ m₂ m₂.errors hv hm
        have s₂ : validateAttrs c m₂ (m₂.errors ++ Δ₁) m₂.relationships =
            Except.ok ((m₂.errors ++ Δ₁) ++ Δ₂, rels') := by
          rw [hr']
          exact hstab₂ m₂ (m₂.errors ++ Δ₁) hv hm
        have hok₂ := runValidationPass_eq c m₂ (m₂.errors ++ Δ₁) ((m₂.errors ++ Δ₁) ++ Δ₂)
          attrs' rels' s₁ s₂
        rw [List.append_assoc] at hok₂
        refine ⟨_, hok₂, ?_⟩
        cases hE₂ : (m₂.errors ++ (Δ₁ ++ Δ₂)).isEmpty <;> simp [hE₂]

theorem clearIfInvalid_values (m : Model) : (clearIfInvalid m).values = m.values := by
  unfold clearIfInvalid
  cases hv : m.isValid <;> simp [hv]

theorem clearIfInvalid_modelName (m : Model) :
    (clearIfInvalid m).modelName = m.modelName := by
  unfold clearIfInvalid
  cases hv : m.isValid <;> simp [hv]

theorem clearIfInvalid_isDeleted (m : Model) :
    (clearIfInvalid m).isDeleted = m.isDeleted := by
  unfold clearIfInvalid
  cases hv : m.isValid <;> simp [hv]

theorem clearIfInvalid_attributes (m : Model) :
    (clearIfInvalid m).attributes = m.attributes := by
  unfold clearIfInvalid
  cases hv : m.isValid <;> simp [hv]

theorem clearIfInvalid_relationships (m : Model) :
    (clearIfInvalid m).relationships = m.relationships := by
  unfold clearIfInvalid
  cases hv : m.isValid <;> simp [hv]

theorem clearIfInvalid_isValid (m : Model) : (clearIfInvalid m).isValid = true := by
  unfold clearIfInvalid
  cases hv : m.isValid <;> simp [hv]

theorem clearIfInvalid_errors (m : Model) (hinv : m.isValid = true → m.errors = []) :
    (clearIfInvalid m).errors = [] := by
  unfold clearIfInvalid
  cases hv : m.isValid
  · simp [hv]
  · simp [hv, hinv hv]

/-- Claim C9: with deterministic, synchronous validators (which the
embedding's validator functions are by construction), calling
`validate()` twice in succession with no intervening mutation of field
values yields the same boolean both times and leaves the Error
Collection with the same contents after each call — a
previously-invalid record's collection is cleared before re-checking,
so errors never accumulate across passes, and re-resolving the
validators over the in-place-mutated declarations is stable.  The
well-formedness hypothesis (a record flagged valid has an empty error
collection) rules out externally corrupted states the engine itself
never produces. -/
theorem validate_idempotent (c : Container) (m : Model)
    (hinv : m.isValid = true → m.errors = [])
    (b : Bool) (m₁ : Model)
    (h : validate c m true = Except.ok (b, m₁)) :
    ∃ m₂, validate c m₁ true = Except.ok (b, m₂) ∧ m₂.errors = m₁.errors := by
  rw [show validate c m true =
    (if (clearIfInvalid m).isDeleted
     then Except.ok (true, clearIfInvalid m)
     else runValidationPass c { clearIfInvalid m with inFlight := true }) from rfl] at h
  cases hd : m.isDeleted with
  | true =>
    have hcond : (clearIfInvalid m).isDeleted = true := by
      rw [clearIfInvalid_isDeleted, hd]
    rw [if_pos hcond] at h
    have hcomp := Except.ok.inj h
    have hb := congrArg Prod.fst hcomp
    have hm₁ := congrArg Prod.snd hcomp
    subst hb
    subst hm₁
    refine ⟨clearIfInvalid m, ?_, rfl⟩
    rw [show validate c (clearIfInvalid m) true =
      (if (clearIfInvalid (clearIfInvalid m)).isDeleted
       then Except.ok (true, clearIfInvalid (clearIfInvalid m))
       else runValidationPass c
         { clearIfInvalid (clearIfInvalid m) with inFlight := true }) from rfl]
    rw [clearIfInvalid_of_valid (clearIfInvalid m) (clearIfInvalid_isValid m), if_pos hcond]
  | false =>
    have hcond : ¬((clearIfInvalid m).isDeleted = true) := by
      rw [clearIfInvalid_isDeleted, hd]
      simp
    rw [if_neg hcond] at h
    obtain ⟨Δ, hE, hb, hvals, hname, hdel, hval, hrestart⟩ :=
      runValidationPass_restart c { clearIfInvalid m with inFlight := true } b m₁ h
    have hWE : ({ clearIfInvalid m with inFlight := true } : Model).errors = [] := by
      simp [clearIfInvalid_errors m hinv]
    have hWvals : ({ clearIfInvalid m with inFlight := true } : Model).values = m.values := by
      simp [clearIfInvalid_values]
    have hWname : ({ clearIfInvalid m with inFlight := true } : Model).modelName =
        m.modelName := by
      simp [clearIfInvalid_modelName]
    have hWV : ({ clearIfInvalid m with inFlight := true } : Model).isValid = true := by
      simp [clearIfInvalid_isValid]
    have hE' : m₁.errors = Δ := by
      rw [hE, hWE]
      simp
    have hb' : b = Δ.isEmpty := by
      rw [hb, hWE]
      simp
    have h₁vals : m₁.values = m.values := hvals.trans hWvals
    have h₁name : m₁.modelName = m.modelName := hname.trans hWname
    have h₁del : m₁.isDeleted = false := by
      rw [hdel]
      simp [clearIfInvalid_isDeleted, hd]
    have h₁val : m₁.isValid = Δ.isEmpty := by
      rw [hval, hWE]
      cases hΔE : Δ.isEmpty <;> simp [hWV, hΔE, clearIfInvalid_isValid]
    have hinv₁ : m₁.isValid = true → m₁.errors = [] := by
      intro hv₁
      rw [h₁val] at hv₁
      rw [hE']
      exact list_eq_nil_of_isEmpty Δ hv₁
    have hA : ({ clearIfInvalid m₁ with inFlight := true } : Model).values =
        ({ clearIfInvalid m with inFlight := true } : Model).values := by
      simp [clearIfInvalid_values, h₁vals, hWvals]
    have hB : ({ clearIfInvalid m₁ with inFlight := true } : Model).modelName =
        ({ clearIfInvalid m with inFlight := true } : Model).modelName := by
      simp [clearIfInvalid_modelName, h₁name, hWname]
    have hC : ({ clearIfInvalid m₁ with inFlight := true } : Model).attributes =
        m₁.attributes := by
      simp [clearIfInvalid_attributes]
    have hD : ({ clearIfInvalid m₁ with inFlight := true } : Model).relationships =
        m₁.relationships := by
      simp [clearIfInvalid_relationships]
    obtain ⟨m₃, hrun, hm₃E⟩ :=
      hrestart { clearIfInvalid m₁ with inFlight := true } hA hB hC hD
    have hNE : ({ clearIfInvalid m₁ with inFlight := true } : Model).errors = [] := by
      simp [clearIfInvalid_errors m₁ hinv₁]
    rw [hNE, List.nil_append] at hrun hm₃E
    refine ⟨m₃, ?_, ?_⟩
    · rw [show validate c m₁ true =
        (if (clearIfInvalid m₁).isDeleted
         then Except.ok (true, clearIfInvalid m₁)
         else runValidationPass c { clearIfInvalid m₁ with inFlight := true }) from rfl]
      have hcond₁ : ¬((clearIfInvalid m₁).isDeleted = true) := by
        rw [clearIfInvalid_isDeleted, h₁del]
        simp
      rw [if_neg hcond₁, hrun, hb']
    · rw [hm₃E, hE']

/-- Witness for C9: the `{presence: true}` record fails its first
pass; the second pass on the post-call record returns the same `false`
and the same single-entry Error Collection. -/
theorem validate_idempotent_witness :
    ∃ m₂, validate testContainer blankNameModelAfter true = Except.ok (false, m₂) ∧
      m₂.errors = blankNameModelAfter.errors :=
  validate_idempotent testContainer blankNameModel (fun _ => rfl) false
    blankNameModelAfter rfl

/-- Witness for C10 at the explicit-object rule `{range: {min: 0}}`:
the declaration comes back as the instance's configuration, now
carrying `attribute` and `messageResolver`, and is no longer the
declared `{min: 0}`. -/
theorem lookupValidator_mutates_declaration_witness :
    ∃ inst, lookupValidator testContainer
        { type := "range", value := JSVal.obj [("min", JSVal.num 0)], attr := plainAttr } =
      Except.ok (inst, JSVal.obj inst.config) ∧
      lookupField inst.config "attribute" = some (JSVal.attrRef "field") ∧
      lookupField inst.config "messageResolver" =
        some (JSVal.resolverRef (lookupMessageResolver testContainer)) ∧
      JSVal.obj inst.config ≠ JSVal.obj [("min", JSVal.num 0)] := by
  obtain ⟨inst, h1, h2, h3, h4⟩ := (lookupValidator_mutates_declaration testContainer
    { type := "range", value := JSVal.obj [("min", JSVal.num 0)], attr := plainAttr }
    rangeFactory rfl).2 [("min", JSVal.num 0)] rfl
  exact ⟨inst, h1, h2, h3, h4 rfl rfl⟩

end ECDV
